import Mathlib

/-!
Verification of the nonogram solver's line solver (`try_solve_line_complete`
in `src/board.rs`), the puzzle parser (`read_csv_puzzle`), the priority set
(`PrioritySet` in `src/util.rs`) and board equality/hashing.

Cells, lines and constraint lists are embedded shallowly: a `Cell` is the
three-valued cell type, a line is a `List Cell`, a constraint list is a
`List Nat` of run lengths.  Rust `usize` arithmetic that can underflow is
modelled explicitly: the line solver returns `SolveResult.panic` exactly
where the Rust program would panic.
-/

namespace Nonogram

/-- The three-valued cell from `board.rs` (`Cell`). -/
inductive Cell
  | unknown
  | empty
  | filled
deriving DecidableEq, Repr

/-- `LineRef::get_cell`; out-of-range reads never occur in the verified
uses, the default is arbitrary. -/
def getCell (l : List Cell) (i : Nat) : Cell := l.getD i Cell.unknown

/-- `get_constraint_bounds(ls, index).0`: the earliest start position of
constraint `i`, namely `i` separators plus the lengths before it. -/
def constraint_left (c : List Nat) (i : Nat) : Nat := i + (c.take i).sum

/-- `LineRef::can_fit_constraint`: a run of `len` filled cells can be put at
`pos` — the neighbouring cells are not filled and no covered cell is empty.
(The Rust code panics when `pos + len` exceeds the line length; the solver
never calls it that way, see `node_viable_oob`.) -/
def can_fit_constraint (l : List Cell) (pos len : Nat) : Bool :=
  if l.length < pos + len then false
  else if 0 < pos ∧ getCell l (pos - 1) = Cell.filled then false
  else if pos + len < l.length ∧ getCell l (pos + len) = Cell.filled then false
  else (List.range' pos len).all (fun i => decide (getCell l i ≠ Cell.empty))

/-- `determine_edge`: the gap between constraint `i` placed at offset `j` and
constraint `i+1` placed at offset `k` contains no filled cell. -/
def determine_edge (c : List Nat) (l : List Cell) (i j k : Nat) : Bool :=
  if k ≤ j + 1 then true
  else (List.range' (constraint_left c i + c.getD i 0 + j + 1) (k - j - 1)).all
        (fun x => decide (getCell l x ≠ Cell.filled))

/-- The node table built by the first pass of `try_solve_line_complete`:
constraint `i` at offset `j` fits locally, and if it is the first (resp.
last) constraint, everything to its left (resp. right) can be empty.
`w = c.length` and `h = slack + 1` as in the Rust code. -/
def node_viable (c : List Nat) (l : List Cell) (w h i j : Nat) : Bool :=
  let L := l.length
  let nv0 := can_fit_constraint l (constraint_left c i + j) (c.getD i 0)
  let nv1 := nv0 &&
    (if i = 0 ∧ 1 < j then
      (List.range (j - 1)).all (fun q => decide (getCell l q ≠ Cell.filled))
    else true)
  nv1 &&
    (if i = w - 1 ∧ j + 2 < h then
      (List.range' (L + j + 2 - h) (h - j - 2)).all
        (fun q => decide (getCell l q ≠ Cell.filled))
    else true)

/-- The memoization table of `find_full_paths` (`NodeList<Option<bool>>`). -/
def Table : Type := Nat → Nat → Option Bool

/-- `NodeList::set`. -/
def Table.set (t : Table) (i j : Nat) (v : Option Bool) : Table :=
  fun i' j' => if i' = i ∧ j' = j then v else t i' j'

/-- `find_full_paths` from `board.rs`, with the mutable `determined` table
threaded through explicitly and a fuel argument for the recursion on
constraint indices (the Rust recursion terminates because `i` increases to
`w - 1`; fuel `≥ w - i` reproduces it exactly, see `find_full_paths_fuel`). -/
def find_full_paths (c : List Nat) (l : List Cell) (w h : Nat) :
    Nat → Nat → Nat → Table → Bool × Table
  | 0, _, _, d => (false, d)
  | fuel + 1, i, j, d =>
    match d i j with
    | some v => (v, d)
    | none =>
      if node_viable c l w h i j then
        if i = w - 1 then (true, d.set i j (some true))
        else
          let r := (List.range' j (h - j)).foldl
            (fun (acc : Bool × Table) k =>
              if determine_edge c l i j k then
                let rr := find_full_paths c l w h fuel (i + 1) k acc.2
                (acc.1 || rr.1, rr.2)
              else acc)
            (false, d)
          (r.1, r.2.set i j (some r.1))
      else (false, d.set i j (some false))

/-- The `determined` table after the loop `for j in 0..h` of calls
`find_full_paths(0, j, …)`. -/
def build_determined (c : List Nat) (l : List Cell) (w h : Nat) : Table :=
  (List.range h).foldl (fun d j => (find_full_paths c l w h w 0 j d).2)
    (fun _ _ => none)

/-- `get_node_range`: the cells covered by constraint `i` at offset `j`. -/
def get_node_range (c : List Nat) (i j : Nat) : Nat × Nat :=
  (constraint_left c i + j, constraint_left c i + j + c.getD i 0)

/-- `get_edge_range`: the gap cells strictly between constraint `i` at
offset `j` and constraint `i+1` at offset `k`. -/
def get_edge_range (c : List Nat) (i j k : Nat) : Option (Nat × Nat) :=
  if k ≤ j + 1 then none
  else some (constraint_left c i + c.getD i 0 + j + 1,
             constraint_left c i + c.getD i 0 + j + 1 + (k - j - 1))

/-- Set the `can_be_empty` flag of every listed cell
(`node_values[k].0 = true`). -/
def mark_empty (nv : Nat → Bool × Bool) (s : List Nat) : Nat → Bool × Bool :=
  s.foldl (fun a p => fun q => if q = p then (true, (a p).2) else a q) nv

/-- Set the `can_be_filled` flag of every listed cell
(`node_values[k].1 = true`). -/
def mark_filled (nv : Nat → Bool × Bool) (s : List Nat) : Nat → Bool × Bool :=
  s.foldl (fun a p => fun q => if q = p then ((a p).1, true) else a q) nv

/-- The updates to `node_values` performed for one reachable node `(i, j)`
in the third pass of `try_solve_line_complete`.  `none` models the panic of
the `.max().unwrap()` call when no reachable node exists in the next layer
(never reached, see `mark_all_ne_none`). -/
def mark_node (c : List Nat) (L w h : Nat) (d : Table) (i j : Nat)
    (nv : Nat → Bool × Bool) : Option (Nat → Bool × Bool) :=
  let nstart := (get_node_range c i j).1
  let nend := (get_node_range c i j).2
  let nv1 := if i = 0 then mark_empty nv (List.range nstart)
             else if 0 < nstart then mark_empty nv [nstart - 1] else nv
  let nv2 := if i = w - 1 then mark_empty nv1 (List.range' nend (L - nend))
             else if nend < L then mark_empty nv1 [nend] else nv1
  let nv3 := mark_filled nv2 (List.range' nstart (nend - nstart))
  if i < w - 1 then
    match ((List.range' j (h - j)).filter
        (fun k => decide (d (i + 1) k = some true))).max? with
    | none => none
    | some k =>
      match get_edge_range c i j k with
      | some r => some (mark_empty nv3 (List.range' r.1 (r.2 - r.1)))
      | none => some nv3
  else some nv3

/-- The third pass: iterate over all nodes in order, applying `mark_node`
to those whose `determined` entry is `some true`. -/
def mark_all (c : List Nat) (L w h : Nat) (d : Table) :
    Option (Nat → Bool × Bool) :=
  (List.range w).foldl (fun acc i =>
    (List.range h).foldl (fun acc2 j =>
      match acc2 with
      | none => none
      | some nv =>
        if d i j = some true then mark_node c L w h d i j nv else some nv)
      acc)
    (some (fun _ => (false, false)))

/-- The final loop of `try_solve_line_complete`: decide every cell from its
`(can_be_empty, can_be_filled)` pair, recording changed indices; `none` is
the `return None` (contradiction).  Counts down `n = L - i` cells from
index `i`. -/
def force_cells (nv : Nat → Bool × Bool) : Nat → Nat → List Cell →
    Option (List Nat × List Cell)
  | 0, _, l => some ([], l)
  | n + 1, i, l =>
    match nv i with
    | (true, false) =>
      match getCell l i with
      | Cell.empty => force_cells nv n (i + 1) l
      | Cell.filled => none
      | Cell.unknown =>
        match force_cells nv n (i + 1) (l.set i Cell.empty) with
        | none => none
        | some r => some (i :: r.1, r.2)
    | (false, true) =>
      match getCell l i with
      | Cell.filled => force_cells nv n (i + 1) l
      | Cell.empty => none
      | Cell.unknown =>
        match force_cells nv n (i + 1) (l.set i Cell.filled) with
        | none => none
        | some r => some (i :: r.1, r.2)
    | (false, false) => none
    | (true, true) => force_cells nv n (i + 1) l

/-- The special case `c.len() == 0` of `try_solve_line_complete`: every
unknown cell becomes empty, any filled cell is a contradiction. -/
def solve_empty_case : Nat → Nat → List Cell → Option (List Nat × List Cell)
  | 0, _, l => some ([], l)
  | n + 1, i, l =>
    match getCell l i with
    | Cell.empty => solve_empty_case n (i + 1) l
    | Cell.filled => none
    | Cell.unknown =>
      match solve_empty_case n (i + 1) (l.set i Cell.empty) with
      | none => none
      | some r => some (i :: r.1, r.2)

/-- Result of `LineMut::try_solve_line_complete`: `panic` models a Rust
panic (the `usize` underflow computing `extra_space`, or `.unwrap()`),
`contradiction` is `None`, `ok changed line` is `Some(changed)` together
with the mutated line. -/
inductive SolveResult
  | panic
  | contradiction
  | ok (changed : List Nat) (line : List Cell)
deriving DecidableEq, Repr

/-- `LineMut::try_solve_line_complete` from `board.rs`. -/
def try_solve_line_complete (c : List Nat) (l : List Cell) : SolveResult :=
  if c.length = 0 then
    match solve_empty_case l.length 0 l with
    | none => SolveResult.contradiction
    | some r => SolveResult.ok r.1 r.2
  else
    let L := l.length
    if L + 1 < c.sum + c.length then SolveResult.panic
    else
      let w := c.length
      let h := L + 1 - c.sum - c.length + 1
      let d := build_determined c l w h
      match mark_all c L w h d with
      | none => SolveResult.panic
      | some nv =>
        match force_cells nv L 0 l with
        | none => SolveResult.contradiction
        | some r => SolveResult.ok r.1 r.2

/-! ### Spec-side placements

A *placement* (spec §4.1, glossary) assigns a start position to every
constraint so that runs stay inside the line, appear in order, and are
separated by at least one empty cell.  `renderStarts` is the whole line a
placement induces; `Sat` says a placement is consistent with the partial
line (it agrees with every already-determined cell). -/

/-- Does the placement with start positions `s` put a run across cell `p`? -/
def coversB (c : List Nat) (s : List Nat) (p : Nat) : Bool :=
  (s.zip c).any (fun t => decide (t.1 ≤ p ∧ p < t.1 + t.2))

/-- The whole line of length `L` induced by the placement `s`. -/
def renderStarts (c : List Nat) (s : List Nat) (L : Nat) : List Cell :=
  (List.range L).map (fun p => if coversB c s p then Cell.filled else Cell.empty)

/-- Start positions `s` are a valid placement of the constraints `c` in a
line of length `L`. -/
def ValidStarts (c : List Nat) (L : Nat) (s : List Nat) : Prop :=
  s.length = c.length ∧
  (∀ i, i < s.length → (i + 1 < s.length →
    s.getD i 0 + c.getD i 0 + 1 ≤ s.getD (i + 1) 0)) ∧
  (∀ i, i < s.length → s.getD i 0 + c.getD i 0 ≤ L)

/-- The placement `s` of `c` satisfies the partial line `l`: it is valid and
its induced whole line agrees with every non-unknown cell of `l`. -/
def Sat (c : List Nat) (l : List Cell) (s : List Nat) : Prop :=
  ValidStarts c l.length s ∧
  ∀ p, p < l.length → getCell l p ≠ Cell.unknown →
    getCell (renderStarts c s l.length) p = getCell l p

instance (c : List Nat) (L : Nat) (s : List Nat) : Decidable (ValidStarts c L s) := by
  unfold ValidStarts; infer_instance

instance (c : List Nat) (l : List Cell) (s : List Nat) : Decidable (Sat c l s) := by
  unfold Sat; infer_instance

/-! ### Basic lemmas -/

theorem getCell_set_self {l : List Cell} {i : Nat} {v : Cell} (h : i < l.length) :
    getCell (l.set i v) i = v := by
  unfold getCell
  rw [List.getD_eq_getElem?_getD, List.getElem?_set_self (by simpa using h)]
  rfl

theorem getCell_set_ne {l : List Cell} {i q : Nat} {v : Cell} (h : i ≠ q) :
    getCell (l.set i v) q = getCell l q := by
  unfold getCell
  rw [List.getD_eq_getElem?_getD, List.getElem?_set_ne h, ← List.getD_eq_getElem?_getD]

theorem getCell_ge_length {l : List Cell} {q : Nat} (h : l.length ≤ q) :
    getCell l q = Cell.unknown := by
  unfold getCell
  rw [List.getD_eq_getElem?_getD, List.getElem?_eq_none (by simpa using h)]
  rfl

theorem constraint_left_succ {c : List Nat} {i : Nat} (h : i < c.length) :
    constraint_left c (i + 1) = constraint_left c i + c.getD i 0 + 1 := by
  unfold constraint_left
  rw [List.sum_take_succ _ _ h, List.getD_eq_getElem c 0 h]
  omega

theorem constraint_left_add_drop {c : List Nat} {i : Nat} (h : i ≤ c.length) :
    constraint_left c i + (c.drop i).sum = i + c.sum := by
  unfold constraint_left
  have : (c.take i).sum + (c.drop i).sum = c.sum := by
    rw [← List.sum_append, List.take_append_drop]
  omega

theorem getD_le_drop_sum {c : List Nat} {i : Nat} (h : i < c.length) :
    c.getD i 0 ≤ (c.drop i).sum := by
  have hd : c.drop i = c.getD i 0 :: c.drop (i + 1) := by
    rw [List.getD_eq_getElem c 0 h]
    exact (List.drop_eq_getElem_cons h)
  rw [hd, List.sum_cons]
  omega

/-- Cells covered by constraint `i` at offset `j` stay within the line
when the constraints fit. -/
theorem node_range_le {c : List Nat} {L i j : Nat} (hfit : c.sum + c.length ≤ L + 1)
    (hi : i < c.length) (hj : j + c.sum + c.length ≤ L + 1) :
    constraint_left c i + j + c.getD i 0 ≤ L := by
  have h1 := constraint_left_add_drop (c := c) (i := i) (Nat.le_of_lt hi)
  have h2 := getD_le_drop_sum (c := c) (i := i) hi
  have h3 : (c.drop i).sum ≤ c.sum := by
    conv_rhs => rw [← List.take_append_drop i c, List.sum_append]
    omega
  omega

/-! ### The cell-forcing loop -/

/-- The decision the final loop of `try_solve_line_complete` makes for one
cell, given its `(can_be_empty, can_be_filled)` pair and current value:
`none` is a contradiction, `some v` the value after the loop. -/
def decide_cell : Bool × Bool → Cell → Option Cell
  | (true, false), Cell.empty => some Cell.empty
  | (true, false), Cell.unknown => some Cell.empty
  | (true, false), Cell.filled => none
  | (false, true), Cell.filled => some Cell.filled
  | (false, true), Cell.unknown => some Cell.filled
  | (false, true), Cell.empty => none
  | (false, false), _ => none
  | (true, true), v => some v

theorem force_cells_sound {nv : Nat → Bool × Bool} :
    ∀ {n i : Nat} {l : List Cell} {r : List Nat × List Cell},
    i + n ≤ l.length → force_cells nv n i l = some r →
    (∀ q, i ≤ q → q < i + n → decide_cell (nv q) (getCell l q) = some (getCell r.2 q))
    ∧ (∀ q, q < i ∨ i + n ≤ q → getCell r.2 q = getCell l q)
    ∧ r.2.length = l.length
    ∧ (∀ q, q ∈ r.1 ↔ (i ≤ q ∧ q < i + n ∧ getCell l q = Cell.unknown ∧
        getCell r.2 q ≠ Cell.unknown)) := by
  intro n
  induction n with
  | zero =>
    intro i l r _ hr
    simp only [force_cells, Option.some.injEq] at hr
    subst hr
    refine ⟨fun q h1 h2 => by omega, fun q _ => rfl, rfl, fun q => ?_⟩
    simp only [List.not_mem_nil, false_iff]
    omega
  | succ n ih =>
    intro i l r hlen hr
    have hi : i < l.length := by omega
    simp only [force_cells] at hr
    -- case on the (can_be_empty, can_be_filled) pair and the current cell
    rcases hnv : nv i with ⟨e, f⟩
    rw [hnv] at hr
    rcases e <;> rcases f
    · -- (false, false): contradiction, impossible
      simp at hr
    · -- (false, true): must be filled
      rcases hc : getCell l i with _ | _ | _ <;> rw [hc] at hr
      · -- unknown: set to filled, index recorded
        rcases hrec : force_cells nv n (i + 1) (l.set i Cell.filled) with _ | r'
        · rw [hrec] at hr; simp at hr
        · rw [hrec] at hr
          simp only [Option.some.injEq] at hr
          subst hr
          have hlen' : i + 1 + n ≤ (l.set i Cell.filled).length := by
            simpa using by omega
          obtain ⟨ha, hb, hc', hd⟩ := ih hlen' hrec
          have hri : getCell r'.2 i = Cell.filled := by
            rw [hb i (by omega), getCell_set_self hi]
          refine ⟨?_, ?_, by simpa using hc', ?_⟩
          · intro q h1 h2
            rcases Nat.eq_or_lt_of_le h1 with h | h
            · subst h; rw [hnv, hc, hri]; rfl
            · have := ha q h (by omega)
              rwa [getCell_set_ne (by omega)] at this
          · intro q hq
            have := hb q (by omega)
            rw [this, getCell_set_ne (by omega)]
          · intro q
            simp only [List.mem_cons]
            constructor
            · rintro (rfl | hq)
              · exact ⟨le_refl _, by omega, hc, by rw [hri]; simp⟩
              · obtain ⟨h1, h2, h3, h4⟩ := (hd q).mp hq
                rw [getCell_set_ne (by omega)] at h3
                exact ⟨by omega, by omega, h3, h4⟩
            · rintro ⟨h1, h2, h3, h4⟩
              rcases Nat.eq_or_lt_of_le h1 with h | h
              · exact Or.inl h.symm
              · refine Or.inr ((hd q).mpr ⟨h, by omega, ?_, h4⟩)
                rwa [getCell_set_ne (by omega)]
      · -- empty: contradiction, impossible
        simp at hr
      · -- filled: unchanged
        have hlen' : i + 1 + n ≤ l.length := by omega
        obtain ⟨ha, hb, hc', hd⟩ := ih hlen' hr
        refine ⟨?_, ?_, hc', ?_⟩
        · intro q h1 h2
          rcases Nat.eq_or_lt_of_le h1 with h | h
          · subst h
            rw [hnv, hc, hb i (by omega), hc]; rfl
          · exact ha q h (by omega)
        · intro q hq
          exact hb q (by omega)
        · intro q
          rw [hd q]
          constructor
          · rintro ⟨h1, h2, h3, h4⟩; exact ⟨by omega, by omega, h3, h4⟩
          · rintro ⟨h1, h2, h3, h4⟩
            rcases Nat.eq_or_lt_of_le h1 with h | h
            · subst h; rw [hc] at h3; cases h3
            · exact ⟨h, by omega, h3, h4⟩
    · -- (true, false): must be empty
      rcases hc : getCell l i with _ | _ | _ <;> rw [hc] at hr
      · rcases hrec : force_cells nv n (i + 1) (l.set i Cell.empty) with _ | r'
        · rw [hrec] at hr; simp at hr
        · rw [hrec] at hr
          simp only [Option.some.injEq] at hr
          subst hr
          have hlen' : i + 1 + n ≤ (l.set i Cell.empty).length := by
            simpa using by omega
          obtain ⟨ha, hb, hc', hd⟩ := ih hlen' hrec
          have hri : getCell r'.2 i = Cell.empty := by
            rw [hb i (by omega), getCell_set_self hi]
          refine ⟨?_, ?_, by simpa using hc', ?_⟩
          · intro q h1 h2
            rcases Nat.eq_or_lt_of_le h1 with h | h
            · subst h; rw [hnv, hc, hri]; rfl
            · have := ha q h (by omega)
              rwa [getCell_set_ne (by omega)] at this
          · intro q hq
            have := hb q (by omega)
            rw [this, getCell_set_ne (by omega)]
          · intro q
            simp only [List.mem_cons]
            constructor
            · rintro (rfl | hq)
              · exact ⟨le_refl _, by omega, hc, by rw [hri]; simp⟩
              · obtain ⟨h1, h2, h3, h4⟩ := (hd q).mp hq
                rw [getCell_set_ne (by omega)] at h3
                exact ⟨by omega, by omega, h3, h4⟩
            · rintro ⟨h1, h2, h3, h4⟩
              rcases Nat.eq_or_lt_of_le h1 with h | h
              · exact Or.inl h.symm
              · refine Or.inr ((hd q).mpr ⟨h, by omega, ?_, h4⟩)
                rwa [getCell_set_ne (by omega)]
      · -- empty: unchanged
        have hlen' : i + 1 + n ≤ l.length := by omega
        obtain ⟨ha, hb, hc', hd⟩ := ih hlen' hr
        refine ⟨?_, ?_, hc', ?_⟩
        · intro q h1 h2
          rcases Nat.eq_or_lt_of_le h1 with h | h
          · subst h
            rw [hnv, hc, hb i (by omega), hc]; rfl
          · exact ha q h (by omega)
        · intro q hq
          exact hb q (by omega)
        · intro q
          rw [hd q]
          constructor
          · rintro ⟨h1, h2, h3, h4⟩; exact ⟨by omega, by omega, h3, h4⟩
          · rintro ⟨h1, h2, h3, h4⟩
            rcases Nat.eq_or_lt_of_le h1 with h | h
            · subst h; rw [hc] at h3; cases h3
            · exact ⟨h, by omega, h3, h4⟩
      · simp at hr
    · -- (true, true): cell untouched
      have hlen' : i + 1 + n ≤ l.length := by omega
      obtain ⟨ha, hb, hc', hd⟩ := ih hlen' hr
      refine ⟨?_, ?_, hc', ?_⟩
      · intro q h1 h2
        rcases Nat.eq_or_lt_of_le h1 with h | h
        · subst h
          rw [hnv, hb i (by omega)]; rfl
        · exact ha q h (by omega)
      · intro q hq
        exact hb q (by omega)
      · intro q
        rw [hd q]
        constructor
        · rintro ⟨h1, h2, h3, h4⟩; exact ⟨by omega, by omega, h3, h4⟩
        · rintro ⟨h1, h2, h3, h4⟩
          rcases Nat.eq_or_lt_of_le h1 with h | h
          · subst h
            rw [hb i (by omega)] at h4
            exact absurd h3 h4
          · exact ⟨h, by omega, h3, h4⟩

theorem force_cells_none_iff {nv : Nat → Bool × Bool} :
    ∀ {n i : Nat} {l : List Cell}, i + n ≤ l.length →
    (force_cells nv n i l = none ↔
      ∃ q, i ≤ q ∧ q < i + n ∧ decide_cell (nv q) (getCell l q) = none) := by
  intro n
  induction n with
  | zero =>
    intro i l _
    simp only [force_cells]
    constructor
    · intro h; cases h
    · rintro ⟨q, h1, h2, _⟩; omega
  | succ n ih =>
    intro i l hlen
    have hi : i < l.length := by omega
    simp only [force_cells]
    rcases hnv : nv i with ⟨e, f⟩
    have step_same : ∀ (l' : List Cell), i + 1 + n ≤ l'.length →
        (∀ q, i + 1 ≤ q → getCell l' q = getCell l q) →
        (force_cells nv n (i + 1) l' = none ↔
          ∃ q, i + 1 ≤ q ∧ q < i + 1 + n ∧
            decide_cell (nv q) (getCell l q) = none) := by
      intro l' hl' hsame
      rw [ih hl']
      constructor
      · rintro ⟨q, h1, h2, h3⟩
        exact ⟨q, h1, h2, by rwa [hsame q h1] at h3⟩
      · rintro ⟨q, h1, h2, h3⟩
        exact ⟨q, h1, h2, by rwa [hsame q h1]⟩
    rcases e <;> rcases f
    · -- (false, false): always none
      simp only [true_iff]
      exact ⟨i, le_refl _, by omega, by rw [hnv]; rfl⟩
    · rcases hc : getCell l i with _ | _ | _
      · rcases hrec : force_cells nv n (i + 1) (l.set i Cell.filled) with _ | r'
        · simp only [true_iff]
          have := (step_same (l.set i Cell.filled) (by simpa using by omega)
            (fun q hq => getCell_set_ne (by omega))).mp hrec
          obtain ⟨q, h1, h2, h3⟩ := this
          exact ⟨q, by omega, by omega, h3⟩
        · simp only [reduceCtorEq, false_iff, not_exists]
          intro q
          rintro ⟨h1, h2, h3⟩
          rcases Nat.eq_or_lt_of_le h1 with h | h
          · subst h; rw [hnv, hc] at h3; cases h3
          · have := (step_same (l.set i Cell.filled) (by simpa using by omega)
              (fun q hq => getCell_set_ne (by omega))).mpr ⟨q, h, by omega, h3⟩
            rw [this] at hrec; cases hrec
      · -- empty with (false,true): none
        simp only [true_iff]
        exact ⟨i, le_refl _, by omega, by rw [hnv, hc]; rfl⟩
      · rw [step_same l (by omega) (fun _ _ => rfl)]
        constructor
        · rintro ⟨q, h1, h2, h3⟩; exact ⟨q, by omega, by omega, h3⟩
        · rintro ⟨q, h1, h2, h3⟩
          rcases Nat.eq_or_lt_of_le h1 with h | h
          · subst h; rw [hnv, hc] at h3; cases h3
          · exact ⟨q, h, by omega, h3⟩
    · rcases hc : getCell l i with _ | _ | _
      · rcases hrec : force_cells nv n (i + 1) (l.set i Cell.empty) with _ | r'
        · simp only [true_iff]
          have := (step_same (l.set i Cell.empty) (by simpa using by omega)
            (fun q hq => getCell_set_ne (by omega))).mp hrec
          obtain ⟨q, h1, h2, h3⟩ := this
          exact ⟨q, by omega, by omega, h3⟩
        · simp only [reduceCtorEq, false_iff, not_exists]
          intro q
          rintro ⟨h1, h2, h3⟩
          rcases Nat.eq_or_lt_of_le h1 with h | h
          · subst h; rw [hnv, hc] at h3; cases h3
          · have := (step_same (l.set i Cell.empty) (by simpa using by omega)
              (fun q hq => getCell_set_ne (by omega))).mpr ⟨q, h, by omega, h3⟩
            rw [this] at hrec; cases hrec
      · rw [step_same l (by omega) (fun _ _ => rfl)]
        constructor
        · rintro ⟨q, h1, h2, h3⟩; exact ⟨q, by omega, by omega, h3⟩
        · rintro ⟨q, h1, h2, h3⟩
          rcases Nat.eq_or_lt_of_le h1 with h | h
          · subst h; rw [hnv, hc] at h3; cases h3
          · exact ⟨q, h, by omega, h3⟩
      · -- filled with (true,false): none
        simp only [true_iff]
        exact ⟨i, le_refl _, by omega, by rw [hnv, hc]; rfl⟩
    · rw [step_same l (by omega) (fun _ _ => rfl)]
      constructor
      · rintro ⟨q, h1, h2, h3⟩; exact ⟨q, by omega, by omega, h3⟩
      · rintro ⟨q, h1, h2, h3⟩
        rcases Nat.eq_or_lt_of_le h1 with h | h
        · subst h; rw [hnv] at h3; cases h3
        · exact ⟨q, h, by omega, h3⟩

/-- `solve_empty_case` is the forcing loop with every cell marked
"must be empty". -/
theorem solve_empty_case_eq_force :
    ∀ (n i : Nat) (l : List Cell),
    solve_empty_case n i l = force_cells (fun _ => (true, false)) n i l := by
  intro n
  induction n with
  | zero => intro i l; rfl
  | succ n ih =>
    intro i l
    simp only [solve_empty_case, force_cells]
    rcases getCell l i with _ | _ | _ <;> simp [ih]

/-! ### Reachability analysis of `find_full_paths`

`CanEnd i j` says the node `(i, j)` starts a viable suffix chain reaching
the last constraint layer; `Pre i j` says `(i, j)` is reachable from layer
`0` through viable nodes and valid edges.  `find_full_paths` memoizes
"can reach the end" and visits exactly the `Pre` nodes, so the final table
holds `some true` exactly on nodes lying on a full path. -/

theorem Table.set_self (t : Table) (i j : Nat) (v : Option Bool) :
    t.set i j v i j = v := by
  simp [Table.set]

theorem Table.set_ne (t : Table) {i j i' j' : Nat} (h : ¬(i' = i ∧ j' = j))
    (v : Option Bool) : t.set i j v i' j' = t i' j' := by
  simp only [Table.set, if_neg h]

section Reachability

variable (c : List Nat) (l : List Cell) (w h : Nat)

/-- Node `(i, j)` is viable and can reach the last layer through viable
nodes and valid edges (the value memoized by `find_full_paths`). -/
inductive CanEnd : Nat → Nat → Prop
  | last (j : Nat) : j < h → node_viable c l w h (w - 1) j = true →
      CanEnd (w - 1) j
  | step (i j k : Nat) : i + 1 < w → node_viable c l w h i j = true →
      j ≤ k → k < h → determine_edge c l i j k = true → CanEnd (i + 1) k →
      CanEnd i j

/-- Node `(i, j)` is visited by the top-level loop of calls
`find_full_paths(0, j')`: reachable from layer 0 through viable nodes and
valid edges. -/
inductive Pre : Nat → Nat → Prop
  | base (j : Nat) : j < h → Pre 0 j
  | step (i j k : Nat) : Pre i j → node_viable c l w h i j = true →
      i + 1 < w → j ≤ k → k < h → determine_edge c l i j k = true →
      Pre (i + 1) k

/-- `(i', j')` is reachable from `(i, j)` through viable nodes and valid
edges (the nodes a call `find_full_paths(i, j)` may newly visit). -/
inductive Desc : Nat → Nat → Nat → Nat → Prop
  | refl (i j : Nat) : Desc i j i j
  | head (i j k i' j' : Nat) : node_viable c l w h i j = true → i + 1 < w →
      j ≤ k → k < h → determine_edge c l i j k = true → Desc (i + 1) k i' j' →
      Desc i j i' j'

theorem canEnd_viable {i j : Nat} (hc : CanEnd c l w h i j) :
    node_viable c l w h i j = true := by
  cases hc with
  | last _ _ hv => exact hv
  | step _ _ _ _ hv _ _ _ _ => exact hv

theorem pre_of_desc {i j i' j' : Nat} (hp : Pre c l w h i j)
    (hd : Desc c l w h i j i' j') : Pre c l w h i' j' := by
  induction hd with
  | refl _ _ => exact hp
  | head i j k i' j' hv hi hjk hk he _ ih => exact ih (Pre.step i j k hp hv hi hjk hk he)

/-- Entries of the memo table are correct "can reach end" verdicts. -/
def TCorrect (d : Table) : Prop :=
  ∀ i j b, d i j = some b → (b = true ↔ CanEnd c l w h i j)

/-- Defined viable non-final nodes have all their valid-edge children
defined (they were explored when first visited). -/
def TClosed (d : Table) : Prop :=
  ∀ i j, d i j ≠ none → node_viable c l w h i j = true → i + 1 < w →
    ∀ k, j ≤ k → k < h → determine_edge c l i j k = true → d (i + 1) k ≠ none

/-- `d'` extends `d`. -/
def TMono (d d' : Table) : Prop := ∀ i j v, d i j = some v → d' i j = some v

/-- Entries of `d'` beyond those of `d` descend from `(i, j)`. -/
def TNew (i j : Nat) (d d' : Table) : Prop :=
  ∀ i' j', d' i' j' ≠ none → d i' j' ≠ none ∨ Desc c l w h i j i' j'

theorem ffp_spec :
    ∀ (fuel i j : Nat) (d : Table), w - i ≤ fuel → i < w → j < h →
    TCorrect c l w h d → TClosed c l w h d →
    ∀ (b : Bool) (d' : Table), find_full_paths c l w h fuel i j d = (b, d') →
    d' i j = some b ∧ (b = true ↔ CanEnd c l w h i j) ∧
    TCorrect c l w h d' ∧ TClosed c l w h d' ∧ TMono d d' ∧
    TNew c l w h i j d d' := by
  intro fuel
  induction fuel with
  | zero => intro i j d hfuel hi hj _ _; omega
  | succ fuel ih =>
    intro i j d hfuel hi hj hcor hclo b d' heq
    rw [find_full_paths] at heq
    cases hd : d i j with
    | some v =>
      rw [hd] at heq
      dsimp only at heq
      injection heq with h1 h2
      subst h1; subst h2
      exact ⟨hd, hcor i j v hd, hcor, hclo, fun _ _ _ hv => hv,
        fun i' j' h' => Or.inl h'⟩
    | none =>
      rw [hd] at heq
      dsimp only at heq
      by_cases hv : node_viable c l w h i j = true
      · rw [if_pos hv] at heq
        by_cases hlast : i = w - 1
        · rw [if_pos hlast] at heq
          injection heq with h1 h2
          subst h1; subst h2
          subst hlast
          refine ⟨Table.set_self _ _ _ _, ?_, ?_, ?_, ?_, ?_⟩
          · simp only [true_iff]
            exact CanEnd.last j hj hv
          · intro i' j' b hb
            by_cases hij : i' = w - 1 ∧ j' = j
            · obtain ⟨rfl, rfl⟩ := hij
              rw [Table.set_self] at hb
              cases hb
              simp only [true_iff]
              exact CanEnd.last _ hj hv
            · rw [Table.set_ne _ hij] at hb
              exact hcor i' j' b hb
          · intro i' j' hne hv' hi' k hjk hk he
            by_cases hij : i' = w - 1 ∧ j' = j
            · obtain ⟨rfl, rfl⟩ := hij
              exact absurd hi' (by omega)
            · rw [Table.set_ne _ hij] at hne
              have := hclo i' j' hne hv' hi' k hjk hk he
              intro hcontra
              by_cases hij2 : i' + 1 = w - 1 ∧ k = j
              · obtain ⟨h1', h2'⟩ := hij2
                rw [h1', h2', Table.set_self] at hcontra
                cases hcontra
              · rw [Table.set_ne _ hij2] at hcontra
                exact this hcontra
          · intro i' j' v hv'
            by_cases hij : i' = w - 1 ∧ j' = j
            · obtain ⟨rfl, rfl⟩ := hij
              rw [hd] at hv'; cases hv'
            · rw [Table.set_ne _ hij]
              exact hv'
          · intro i' j' h'
            by_cases hij : i' = w - 1 ∧ j' = j
            · obtain ⟨rfl, rfl⟩ := hij
              exact Or.inr (Desc.refl _ _)
            · rw [Table.set_ne _ hij] at h'
              exact Or.inl h'
        · rw [if_neg hlast] at heq
          have hi1 : i + 1 < w := by omega
          -- the inner loop over candidate children
          have hfold : ∀ (ks : List Nat), (∀ k ∈ ks, j ≤ k ∧ k < h) →
              ∀ (acc : Bool) (dc : Table), TCorrect c l w h dc →
              TClosed c l w h dc → TMono d dc → TNew c l w h i j d dc →
              ∀ (b2 : Bool) (d2 : Table),
              ks.foldl
                (fun (acc : Bool × Table) k =>
                  if determine_edge c l i j k = true then
                    (acc.1 || (find_full_paths c l w h fuel (i + 1) k acc.2).1,
                     (find_full_paths c l w h fuel (i + 1) k acc.2).2)
                  else acc) (acc, dc) = (b2, d2) →
              TCorrect c l w h d2 ∧ TClosed c l w h d2 ∧ TMono d d2 ∧
              TNew c l w h i j d d2 ∧ TMono dc d2 ∧
              (∀ k ∈ ks, determine_edge c l i j k = true →
                d2 (i + 1) k ≠ none) ∧
              (b2 = true ↔ acc = true ∨
                ∃ k ∈ ks, determine_edge c l i j k = true ∧
                  CanEnd c l w h (i + 1) k) := by
            intro ks
            induction ks with
            | nil =>
              intro _ acc dc h1 h2 h3 h4 b2 d2 heq2
              simp only [List.foldl_nil] at heq2
              injection heq2 with e1 e2
              subst e1; subst e2
              refine ⟨h1, h2, h3, h4, fun _ _ _ hv' => hv', ?_, ?_⟩
              · intro k hk; cases hk
              · simp
            | cons k ks ihk =>
              intro hmem acc dc h1 h2 h3 h4 b2 d2 heq2
              obtain ⟨hjk, hkh⟩ := hmem k (List.mem_cons_self k ks)
              simp only [List.foldl_cons] at heq2
              by_cases he : determine_edge c l i j k = true
              · rw [if_pos he] at heq2
                obtain ⟨ce, cif, ccor, cclo, cmono, cnew⟩ :=
                  ih (i + 1) k dc (by omega) hi1 hkh h1 h2
                    (find_full_paths c l w h fuel (i + 1) k dc).1
                    (find_full_paths c l w h fuel (i + 1) k dc).2 rfl
                have h3' : TMono d (find_full_paths c l w h fuel (i + 1) k dc).2 :=
                  fun i' j' v hv' => cmono i' j' v (h3 i' j' v hv')
                have h4' : TNew c l w h i j d
                    (find_full_paths c l w h fuel (i + 1) k dc).2 := by
                  intro i' j' h'
                  rcases cnew i' j' h' with h' | h'
                  · exact h4 i' j' h'
                  · exact Or.inr (Desc.head i j k i' j' hv hi1 hjk hkh he h')
                obtain ⟨r1, r2, r3, r4, r5, r6, r7⟩ :=
                  ihk (fun k' hk' => hmem k' (List.mem_cons_of_mem k hk'))
                    (acc || (find_full_paths c l w h fuel (i + 1) k dc).1)
                    (find_full_paths c l w h fuel (i + 1) k dc).2 ccor cclo h3' h4'
                    b2 d2 heq2
                refine ⟨r1, r2, r3, r4, ?_, ?_, ?_⟩
                · exact fun i' j' v hv' => r5 i' j' v (cmono i' j' v hv')
                · intro k' hk' he'
                  rcases List.mem_cons.mp hk' with rfl | hk'
                  · intro hcontra
                    have := r5 (i + 1) k' _ ce
                    rw [this] at hcontra; cases hcontra
                  · exact r6 k' hk' he'
                · rw [r7]
                  constructor
                  · rintro (hacc | hex)
                    · rcases Bool.or_eq_true_iff.mp hacc with hacc | hcall
                      · exact Or.inl hacc
                      · exact Or.inr ⟨k, List.mem_cons_self k ks, he, cif.mp hcall⟩
                    · obtain ⟨k', hk', he', hce⟩ := hex
                      exact Or.inr ⟨k', List.mem_cons_of_mem k hk', he', hce⟩
                  · rintro (hacc | ⟨k', hk', he', hce⟩)
                    · exact Or.inl (by rw [hacc]; rfl)
                    · rcases List.mem_cons.mp hk' with rfl | hk'
                      · exact Or.inl (by rw [cif.mpr hce, Bool.or_true])
                      · exact Or.inr ⟨k', hk', he', hce⟩
              · rw [if_neg he] at heq2
                obtain ⟨r1, r2, r3, r4, r5, r6, r7⟩ :=
                  ihk (fun k' hk' => hmem k' (List.mem_cons_of_mem k hk'))
                    acc dc h1 h2 h3 h4 b2 d2 heq2
                refine ⟨r1, r2, r3, r4, r5, ?_, ?_⟩
                · intro k' hk' he'
                  rcases List.mem_cons.mp hk' with rfl | hk'
                  · exact absurd he' he
                  · exact r6 k' hk' he'
                · rw [r7]
                  constructor
                  · rintro (hacc | ⟨k', hk', he', hce⟩)
                    · exact Or.inl hacc
                    · exact Or.inr ⟨k', List.mem_cons_of_mem k hk', he', hce⟩
                  · rintro (hacc | ⟨k', hk', he', hce⟩)
                    · exact Or.inl hacc
                    · rcases List.mem_cons.mp hk' with rfl | hk'
                      · exact absurd he' he
                      · exact Or.inr ⟨k', hk', he', hce⟩
          have hks : ∀ k ∈ List.range' j (h - j), j ≤ k ∧ k < h := by
            intro k hk
            rw [List.mem_range'_1] at hk
            omega
          have hbase : TNew c l w h i j d d := fun i' j' h' => Or.inl h'
          obtain ⟨r1, r2, r3, r4, r5, r6, r7⟩ :=
            hfold (List.range' j (h - j)) hks false d hcor hclo
              (fun _ _ _ hv' => hv') hbase
              ((List.range' j (h - j)).foldl _ (false, d)).1
              ((List.range' j (h - j)).foldl _ (false, d)).2 rfl
          rw [Prod.mk.injEq] at heq
          obtain ⟨hb, hd'⟩ := heq
          subst hb; subst hd'
          have hiff : ((List.range' j (h - j)).foldl
              (fun (acc : Bool × Table) k =>
                if determine_edge c l i j k = true then
                  (acc.1 || (find_full_paths c l w h fuel (i + 1) k acc.2).1,
                   (find_full_paths c l w h fuel (i + 1) k acc.2).2)
                else acc) (false, d)).1 = true ↔ CanEnd c l w h i j := by
            rw [r7]
            simp only [Bool.false_eq_true, false_or]
            constructor
            · rintro ⟨k, hk, he, hce⟩
              obtain ⟨hjk, hkh⟩ := hks k hk
              exact CanEnd.step i j k hi1 hv hjk hkh he hce
            · intro hce
              cases hce with
              | last j' hj' hv' => omega
              | step i j k hi' hv' hjk hkh he hce =>
                exact ⟨k, List.mem_range'_1.mpr ⟨hjk, by omega⟩, he, hce⟩
          refine ⟨Table.set_self _ _ _ _, hiff, ?_, ?_, ?_, ?_⟩
          · intro i' j' b hb
            by_cases hij : i' = i ∧ j' = j
            · obtain ⟨rfl, rfl⟩ := hij
              rw [Table.set_self] at hb
              cases hb
              exact hiff
            · rw [Table.set_ne _ hij] at hb
              exact r1 i' j' b hb
          · intro i' j' hne hv' hi' k hjk hk he
            by_cases hij2 : i' + 1 = i ∧ k = j
            · obtain ⟨h1', h2'⟩ := hij2
              rw [h1', h2', Table.set_self]
              simp
            · rw [Table.set_ne _ hij2]
              by_cases hij : i' = i ∧ j' = j
              · obtain ⟨rfl, rfl⟩ := hij
                exact r6 k (List.mem_range'_1.mpr ⟨hjk, by omega⟩) he
              · rw [Table.set_ne _ hij] at hne
                exact r2 i' j' hne hv' hi' k hjk hk he
          · intro i' j' v hv'
            by_cases hij : i' = i ∧ j' = j
            · obtain ⟨rfl, rfl⟩ := hij
              rw [hd] at hv'; cases hv'
            · rw [Table.set_ne _ hij]
              exact r3 i' j' v hv'
          · intro i' j' h'
            by_cases hij : i' = i ∧ j' = j
            · obtain ⟨rfl, rfl⟩ := hij
              exact Or.inr (Desc.refl _ _)
            · rw [Table.set_ne _ hij] at h'
              exact r4 i' j' h'
      · rw [if_neg hv] at heq
        injection heq with h1 h2
        subst h1; subst h2
        have hnc : ¬ CanEnd c l w h i j := fun hce => hv (canEnd_viable c l w h hce)
        refine ⟨Table.set_self _ _ _ _, by simp [hnc], ?_, ?_, ?_, ?_⟩
        · intro i' j' b hb
          by_cases hij : i' = i ∧ j' = j
          · obtain ⟨rfl, rfl⟩ := hij
            rw [Table.set_self] at hb
            cases hb
            simp [hnc]
          · rw [Table.set_ne _ hij] at hb
            exact hcor i' j' b hb
        · intro i' j' hne hv' hi' k hjk hk he
          by_cases hij2 : i' + 1 = i ∧ k = j
          · obtain ⟨h1', h2'⟩ := hij2
            rw [h1', h2', Table.set_self]
            simp
          · rw [Table.set_ne _ hij2]
            by_cases hij : i' = i ∧ j' = j
            · obtain ⟨rfl, rfl⟩ := hij
              exact absurd hv' hv
            · rw [Table.set_ne _ hij] at hne
              exact hclo i' j' hne hv' hi' k hjk hk he
        · intro i' j' v hv'
          by_cases hij : i' = i ∧ j' = j
          · obtain ⟨rfl, rfl⟩ := hij
            rw [hd] at hv'; cases hv'
          · rw [Table.set_ne _ hij]
            exact hv'
        · intro i' j' h'
          by_cases hij : i' = i ∧ j' = j
          · obtain ⟨rfl, rfl⟩ := hij
            exact Or.inr (Desc.refl _ _)
          · rw [Table.set_ne _ hij] at h'
            exact Or.inl h'

/-- Entries of the table are `Pre`-visited nodes. -/
def TPre (d : Table) : Prop := ∀ i j, d i j ≠ none → Pre c l w h i j

theorem build_determined_spec (hw : 0 < w) :
    TCorrect c l w h (build_determined c l w h) ∧
    TClosed c l w h (build_determined c l w h) ∧
    TPre c l w h (build_determined c l w h) ∧
    (∀ j, j < h → build_determined c l w h 0 j ≠ none) := by
  have H : ∀ (js : List Nat), (∀ x ∈ js, x < h) → ∀ (d0 : Table),
      TCorrect c l w h d0 → TClosed c l w h d0 → TPre c l w h d0 →
      TCorrect c l w h (js.foldl (fun d j => (find_full_paths c l w h w 0 j d).2) d0) ∧
      TClosed c l w h (js.foldl (fun d j => (find_full_paths c l w h w 0 j d).2) d0) ∧
      TPre c l w h (js.foldl (fun d j => (find_full_paths c l w h w 0 j d).2) d0) ∧
      TMono d0 (js.foldl (fun d j => (find_full_paths c l w h w 0 j d).2) d0) ∧
      (∀ x ∈ js,
        (js.foldl (fun d j => (find_full_paths c l w h w 0 j d).2) d0) 0 x ≠ none) := by
    intro js
    induction js with
    | nil =>
      intro _ d0 h1 h2 h3
      exact ⟨h1, h2, h3, fun _ _ _ hv => hv, fun x hx => absurd hx (List.not_mem_nil x)⟩
    | cons x js ihjs =>
      intro hmem d0 h1 h2 h3
      have hx : x < h := hmem x (List.mem_cons_self x js)
      obtain ⟨ce, cif, ccor, cclo, cmono, cnew⟩ :=
        ffp_spec c l w h w 0 x d0 (by omega) hw hx h1 h2
          (find_full_paths c l w h w 0 x d0).1
          (find_full_paths c l w h w 0 x d0).2 rfl
      have cpre : TPre c l w h (find_full_paths c l w h w 0 x d0).2 := by
        intro i' j' h'
        rcases cnew i' j' h' with h' | h'
        · exact h3 i' j' h'
        · exact pre_of_desc c l w h (Pre.base x hx) h'
      simp only [List.foldl_cons]
      obtain ⟨r1, r2, r3, r4, r5⟩ :=
        ihjs (fun y hy => hmem y (List.mem_cons_of_mem x hy))
          (find_full_paths c l w h w 0 x d0).2 ccor cclo cpre
      refine ⟨r1, r2, r3, ?_, ?_⟩
      · exact fun i' j' v hv => r4 i' j' v (cmono i' j' v hv)
      · intro y hy
        rcases List.mem_cons.mp hy with rfl | hy
        · intro hcontra
          rw [r4 0 y _ ce] at hcontra
          cases hcontra
        · exact r5 y hy
  obtain ⟨r1, r2, r3, _, r5⟩ := H (List.range h)
    (fun x hx => List.mem_range.mp hx) (fun _ _ => none)
    (fun _ _ b hb => by cases hb) (fun _ _ hne => absurd rfl hne)
    (fun _ _ hne => absurd rfl hne)
  exact ⟨r1, r2, r3, fun j hj => r5 j (List.mem_range.mpr hj)⟩

/-- The final `determined` table holds `some true` exactly on nodes lying
on a full placement path. -/
theorem determined_true_iff (hw : 0 < w) {i j : Nat} (hj : j < h) :
    build_determined c l w h i j = some true ↔
      (Pre c l w h i j ∧ CanEnd c l w h i j) := by
  obtain ⟨hcor, hclo, hpre, hbase⟩ := build_determined_spec c l w h hw
  constructor
  · intro ht
    refine ⟨hpre i j (by rw [ht]; exact fun hcontra => by cases hcontra), ?_⟩
    exact (hcor i j true ht).mp rfl
  · rintro ⟨hp, hce⟩
    have hne : ∀ i' j', Pre c l w h i' j' →
        build_determined c l w h i' j' ≠ none := by
      intro i' j' hp'
      induction hp' with
      | base j' hj' => exact hbase j' hj'
      | step i'' j'' k hp'' hv hi1 hjk hk he ihp =>
        exact hclo i'' j'' ihp hv hi1 k hjk hk he
    cases hb : build_determined c l w h i j with
    | none => exact absurd hb (hne i j hp)
    | some b =>
      have := (hcor i j b hb).mpr hce
      exact congrArg some this

/-- A reachable node below the last layer has a reachable child: the
`.max().unwrap()` in the marking pass never panics. -/
theorem reach_child (hw : 0 < w) {i j : Nat} (hi1 : i + 1 < w) (hj : j < h)
    (ht : build_determined c l w h i j = some true) :
    ∃ k, j ≤ k ∧ k < h ∧ build_determined c l w h (i + 1) k = some true := by
  obtain ⟨hp, hce⟩ := (determined_true_iff c l w h hw hj).mp ht
  cases hce with
  | last j' hj' hv => omega
  | step i j k hi' hv hjk hk he hce =>
    refine ⟨k, hjk, hk, ?_⟩
    exact (determined_true_iff c l w h hw hk).mpr
      ⟨Pre.step _ _ _ hp hv hi' hjk hk he, hce⟩

end Reachability

/-! ### Chains of nodes and placements -/

/-- The offsets of a whole-line placement in graph form: one offset per
constraint layer, within bounds, every node viable, consecutive nodes
joined by valid edges. -/
def GoodChain (c : List Nat) (l : List Cell) (w h : Nat) (js : List Nat) : Prop :=
  js.length = w ∧
  (∀ t, t < w → js.getD t 0 < h ∧ node_viable c l w h t (js.getD t 0) = true) ∧
  (∀ t, t + 1 < w → js.getD t 0 ≤ js.getD (t + 1) 0 ∧
    determine_edge c l t (js.getD t 0) (js.getD (t + 1) 0) = true)

theorem range_map_getD {α : Type} {f : Nat → α} {n t : Nat} {d : α} (h : t < n) :
    ((List.range n).map f).getD t d = f t := by
  rw [List.getD_eq_getElem _ _ (by simpa using h)]
  simp

theorem canEnd_suffix {c : List Nat} {l : List Cell} {w h : Nat} (hw : 0 < w)
    {i j : Nat} (hce : CanEnd c l w h i j) :
    ∃ js : List Nat, js.length = w - i ∧ js.getD 0 0 = j ∧
    (∀ t, t < w - i → js.getD t 0 < h ∧
      node_viable c l w h (i + t) (js.getD t 0) = true) ∧
    (∀ t, t + 1 < w - i → js.getD t 0 ≤ js.getD (t + 1) 0 ∧
      determine_edge c l (i + t) (js.getD t 0) (js.getD (t + 1) 0) = true) := by
  induction hce with
  | last j hj hv =>
    refine ⟨[j], by simp; omega, rfl, ?_, ?_⟩
    · intro t ht
      have ht0 : t = 0 := by omega
      subst ht0
      have hidx : w - 1 + 0 = w - 1 := by omega
      rw [hidx]
      exact ⟨hj, hv⟩
    · intro t ht
      omega
  | step i j k hi1 hv hjk hk he hce ih =>
    obtain ⟨js', hlen, hhead, hnode, hedge⟩ := ih
    refine ⟨j :: js', by simp [hlen]; omega, rfl, ?_, ?_⟩
    · intro t ht
      cases t with
      | zero =>
        have hidx : i + 0 = i := by omega
        rw [hidx, List.getD_cons_zero]
        exact ⟨by omega, hv⟩
      | succ t' =>
        have hidx : i + (t' + 1) = (i + 1) + t' := by omega
        rw [List.getD_cons_succ, hidx]
        exact hnode t' (by omega)
    · intro t ht
      cases t with
      | zero =>
        have hidx : i + 0 = i := by omega
        rw [List.getD_cons_zero, List.getD_cons_succ, hhead, hidx]
        exact ⟨hjk, he⟩
      | succ t' =>
        have hidx : i + (t' + 1) = (i + 1) + t' := by omega
        rw [List.getD_cons_succ, List.getD_cons_succ, hidx]
        exact hedge t' (by omega)

theorem pre_prefix {c : List Nat} {l : List Cell} {w h : Nat}
    {i j : Nat} (hp : Pre c l w h i j) :
    ∃ js : List Nat, js.length = i + 1 ∧ js.getD i 0 = j ∧
    (∀ t, t ≤ i → js.getD t 0 < h) ∧
    (∀ t, t < i → node_viable c l w h t (js.getD t 0) = true) ∧
    (∀ t, t < i → js.getD t 0 ≤ js.getD (t + 1) 0 ∧
      determine_edge c l t (js.getD t 0) (js.getD (t + 1) 0) = true) := by
  induction hp with
  | base j hj =>
    refine ⟨[j], rfl, rfl, ?_, ?_, ?_⟩
    · intro t ht
      have ht0 : t = 0 := by omega
      subst ht0
      exact hj
    · intro t ht; omega
    · intro t ht; omega
  | step i j k hp hv hi1 hjk hk he ih =>
    obtain ⟨js', hlen, hlast, hbound, hnode, hedge⟩ := ih
    refine ⟨js' ++ [k], by simp [hlen], ?_, ?_, ?_, ?_⟩
    · rw [List.getD_append_right _ _ _ _ (by omega), hlen]
      simp
    · intro t ht
      by_cases htle : t ≤ i
      · rw [List.getD_append _ _ _ _ (by omega)]
        exact hbound t htle
      · have ht1 : t = i + 1 := by omega
        subst ht1
        rw [List.getD_append_right _ _ _ _ (by omega), hlen]
        simpa using hk
    · intro t ht
      by_cases htlt : t < i
      · rw [List.getD_append _ _ _ _ (by omega)]
        exact hnode t htlt
      · have ht1 : t = i := by omega
        subst ht1
        rw [List.getD_append _ _ _ _ (by omega), hlast]
        exact hv
    · intro t ht
      by_cases htlt : t < i
      · rw [List.getD_append _ _ _ _ (by omega),
          List.getD_append _ _ _ _ (by omega)]
        exact hedge t htlt
      · have ht1 : t = i := by omega
        subst ht1
        rw [List.getD_append _ _ _ _ (by omega), hlast,
          List.getD_append_right _ _ _ _ (by omega), hlen]
        simpa using ⟨hjk, he⟩

theorem fullpath_chain {c : List Nat} {l : List Cell} {w h : Nat} (hw : 0 < w)
    {i j : Nat} (hi : i < w) (hp : Pre c l w h i j)
    (hce : CanEnd c l w h i j) :
    ∃ js, GoodChain c l w h js ∧ js.getD i 0 = j := by
  obtain ⟨jp, hplen, hplast, hpbound, hpnode, hpedge⟩ := pre_prefix hp
  obtain ⟨jsf, hslen, hshead, hsnode, hsedge⟩ := canEnd_suffix hw hce
  refine ⟨(List.range w).map (fun t => if t ≤ i then jp.getD t 0 else jsf.getD (t - i) 0),
    ⟨by simp, ?_, ?_⟩, ?_⟩
  · intro t ht
    rw [range_map_getD ht]
    by_cases htle : t ≤ i
    · rw [if_pos htle]
      rcases Nat.lt_or_ge t i with htlt | htge
      · exact ⟨hpbound t (by omega), hpnode t htlt⟩
      · have ht1 : t = i := by omega
        rw [ht1, hplast]
        have hb := hpbound i le_rfl
        rw [hplast] at hb
        refine ⟨hb, ?_⟩
        have hsn := hsnode 0 (by omega)
        rw [hshead] at hsn
        have hidx : i + 0 = i := by omega
        rw [hidx] at hsn
        exact hsn.2
    · rw [if_neg htle]
      have := hsnode (t - i) (by omega)
      have hidx : i + (t - i) = t := by omega
      rw [hidx] at this
      exact this
  · intro t ht
    rw [range_map_getD (by omega), range_map_getD (by omega)]
    rcases Nat.lt_or_ge t i with htlt | htge
    · rw [if_pos (by omega), if_pos (by omega)]
      exact hpedge t htlt
    · rcases Nat.eq_or_lt_of_le htge with ht1 | htgt
      · rw [← ht1, if_pos le_rfl, if_neg (by omega), hplast]
        have hse := hsedge 0 (by omega)
        rw [hshead] at hse
        have hidx2 : i + 1 - i = 1 := by omega
        rw [hidx2]
        have hidx3 : i + 0 = i := by omega
        rw [hidx3] at hse
        exact hse
      · rw [if_neg (by omega), if_neg (by omega)]
        have hse := hsedge (t - i) (by omega)
        have hidx : i + (t - i) = t := by omega
        have hidx2 : t + 1 - i = (t - i) + 1 := by omega
        rw [hidx] at hse
        rw [hidx2]
        exact hse
  · rw [range_map_getD hi, if_pos le_rfl]
    exact hplast

theorem chain_fullpath {c : List Nat} {l : List Cell} {w h : Nat}
    {js : List Nat} (hch : GoodChain c l w h js) :
    ∀ i, i < w → Pre c l w h i (js.getD i 0) ∧ CanEnd c l w h i (js.getD i 0) := by
  obtain ⟨hlen, hnode, hedge⟩ := hch
  have hpre : ∀ i, i < w → Pre c l w h i (js.getD i 0) := by
    intro i
    induction i with
    | zero => intro hi; exact Pre.base _ (hnode 0 hi).1
    | succ i ih =>
      intro hi
      exact Pre.step i (js.getD i 0) (js.getD (i + 1) 0) (ih (by omega))
        (hnode i (by omega)).2 hi (hedge i hi).1 (hnode (i + 1) hi).1
        (hedge i hi).2
  have hce : ∀ n i, i < w → w - i ≤ n → CanEnd c l w h i (js.getD i 0) := by
    intro n
    induction n with
    | zero => intro i hi hn; omega
    | succ n ih =>
      intro i hi hn
      by_cases hlast : i = w - 1
      · subst hlast
        exact CanEnd.last _ (hnode (w - 1) hi).1 (hnode (w - 1) hi).2
      · have hi1 : i + 1 < w := by omega
        exact CanEnd.step i _ _ hi1 (hnode i hi).2 (hedge i hi1).1
          (hnode (i + 1) hi1).1 (hedge i hi1).2 (ih (i + 1) hi1 (by omega))
  exact fun i hi => ⟨hpre i hi, hce w i hi (by omega)⟩

/-- The `determined` table holds `some true` at `(i, j)` exactly when some
whole chain passes through the node. -/
theorem determined_iff_chain {c : List Nat} {l : List Cell} {w h : Nat}
    (hw : 0 < w) {i j : Nat} (hi : i < w) (hj : j < h) :
    build_determined c l w h i j = some true ↔
      ∃ js, GoodChain c l w h js ∧ js.getD i 0 = j := by
  rw [determined_true_iff c l w h hw hj]
  constructor
  · rintro ⟨hp, hce⟩
    exact fullpath_chain hw hi hp hce
  · rintro ⟨js, hch, hji⟩
    have := chain_fullpath hch i hi
    rw [hji] at this
    exact this

/-! ### Unfolding the local checks -/

theorem can_fit_iff {l : List Cell} {pos len : Nat} :
    can_fit_constraint l pos len = true ↔
    pos + len ≤ l.length ∧
    (0 < pos → getCell l (pos - 1) ≠ Cell.filled) ∧
    (pos + len < l.length → getCell l (pos + len) ≠ Cell.filled) ∧
    (∀ q, pos ≤ q → q < pos + len → getCell l q ≠ Cell.empty) := by
  unfold can_fit_constraint
  split_ifs with h1 h2 h3
  · simp only [Bool.false_eq_true, false_iff, not_and]
    intro ha
    omega
  · simp only [Bool.false_eq_true, false_iff]
    rintro ⟨_, hb, _, _⟩
    exact hb h2.1 h2.2
  · simp only [Bool.false_eq_true, false_iff]
    rintro ⟨_, _, hb, _⟩
    exact hb h3.1 h3.2
  · rw [List.all_eq_true]
    constructor
    · intro hall
      refine ⟨by omega, fun hp hc => h2 ⟨hp, hc⟩, fun hp hc => h3 ⟨hp, hc⟩, ?_⟩
      intro q hq1 hq2
      have := hall q (List.mem_range'_1.mpr ⟨hq1, by omega⟩)
      simpa using this
    · rintro ⟨_, _, _, hin⟩
      intro q hq
      rw [List.mem_range'_1] at hq
      simpa using hin q hq.1 (by omega)

theorem determine_edge_iff {c : List Nat} {l : List Cell} {i j k : Nat} :
    determine_edge c l i j k = true ↔
    ∀ x, constraint_left c i + c.getD i 0 + j + 1 ≤ x →
      x < constraint_left c i + c.getD i 0 + j + 1 + (k - j - 1) →
      getCell l x ≠ Cell.filled := by
  unfold determine_edge
  split_ifs with h1
  · simp only [true_iff]
    intro x hx1 hx2
    omega
  · rw [List.all_eq_true]
    constructor
    · intro hall x hx1 hx2
      have := hall x (List.mem_range'_1.mpr ⟨hx1, by omega⟩)
      simpa using this
    · intro hin x hx
      rw [List.mem_range'_1] at hx
      simpa using hin x hx.1 (by omega)

theorem node_viable_iff {c : List Nat} {l : List Cell} {w h i j : Nat} :
    node_viable c l w h i j = true ↔
    can_fit_constraint l (constraint_left c i + j) (c.getD i 0) = true ∧
    (i = 0 → 1 < j → ∀ q, q < j - 1 → getCell l q ≠ Cell.filled) ∧
    (i = w - 1 → j + 2 < h → ∀ q, l.length + j + 2 - h ≤ q →
      q < l.length + j + 2 - h + (h - j - 2) → getCell l q ≠ Cell.filled) := by
  unfold node_viable
  simp only [Bool.and_eq_true]
  constructor
  · rintro ⟨⟨hfitc, hfirst⟩, hlast⟩
    refine ⟨hfitc, ?_, ?_⟩
    · intro hi0 hj1 q hq
      rw [if_pos ⟨hi0, hj1⟩, List.all_eq_true] at hfirst
      have := hfirst q (List.mem_range.mpr hq)
      simpa using this
    · intro hiw hj2 q hq1 hq2
      rw [if_pos ⟨hiw, hj2⟩, List.all_eq_true] at hlast
      have := hlast q (List.mem_range'_1.mpr ⟨hq1, by omega⟩)
      simpa using this
  · rintro ⟨hfitc, hfirst, hlast⟩
    refine ⟨⟨hfitc, ?_⟩, ?_⟩
    · split_ifs with hcond
      · rw [List.all_eq_true]
        intro q hq
        rw [List.mem_range] at hq
        simpa using hfirst hcond.1 hcond.2 q hq
      · rfl
    · split_ifs with hcond
      · rw [List.all_eq_true]
        intro q hq
        rw [List.mem_range'_1] at hq
        simpa using hlast hcond.1 hcond.2 q hq.1 (by omega)
      · rfl

/-! ### Placements: renderings, coverage and spacing -/

/-- The start positions of the placement encoded by a chain of offsets. -/
def chainStarts (c : List Nat) (js : List Nat) : List Nat :=
  (List.range c.length).map (fun t => constraint_left c t + js.getD t 0)

/-- The offsets of a placement given by start positions. -/
def satOffsets (c : List Nat) (s : List Nat) : List Nat :=
  (List.range c.length).map (fun t => s.getD t 0 - constraint_left c t)

theorem render_getCell {c s : List Nat} {L p : Nat} (hp : p < L) :
    getCell (renderStarts c s L) p =
      if coversB c s p then Cell.filled else Cell.empty := by
  unfold renderStarts getCell
  rw [List.getD_eq_getElem _ _ (by simpa using hp)]
  simp

theorem coversB_iff {c s : List Nat} (hlen : s.length = c.length) {p : Nat} :
    coversB c s p = true ↔
    ∃ t, t < c.length ∧ s.getD t 0 ≤ p ∧ p < s.getD t 0 + c.getD t 0 := by
  unfold coversB
  rw [List.any_eq_true]
  constructor
  · rintro ⟨a, ha, hcond⟩
    obtain ⟨t, ht, hat⟩ := List.mem_iff_getElem.mp ha
    rw [List.getElem_zip] at hat
    have htc : t < c.length := by
      rw [List.length_zip] at ht
      omega
    refine ⟨t, htc, ?_⟩
    rw [List.getD_eq_getElem s 0 (by omega), List.getD_eq_getElem c 0 htc]
    rw [← hat] at hcond
    simpa using hcond
  · rintro ⟨t, htc, hcond⟩
    refine ⟨(s.getD t 0, c.getD t 0), ?_, by simpa using hcond⟩
    rw [List.mem_iff_getElem]
    refine ⟨t, by rw [List.length_zip]; omega, ?_⟩
    rw [List.getElem_zip, List.getD_eq_getElem s 0 (by omega),
      List.getD_eq_getElem c 0 htc]

theorem validStarts_chain {c s : List Nat} {L : Nat} (hv : ValidStarts c L s) :
    ∀ u u', u < u' → u' < c.length →
    s.getD u 0 + c.getD u 0 + 1 ≤ s.getD u' 0 := by
  obtain ⟨hlen, hsp, _⟩ := hv
  intro u u' huu
  induction u' with
  | zero => omega
  | succ u' ih =>
    intro hu'
    rcases Nat.lt_or_ge u u' with hlt | hge
    · have h1 := ih hlt (by omega)
      have h2 := hsp u' (by omega) (by omega)
      omega
    · have hu1 : u = u' := by omega
      subst hu1
      exact hsp u (by omega) (by omega)

theorem validStarts_mono {c s : List Nat} {L : Nat} (hv : ValidStarts c L s) :
    ∀ u u', u ≤ u' → u' < c.length → s.getD u 0 ≤ s.getD u' 0 := by
  intro u u' huu hu'
  rcases Nat.eq_or_lt_of_le huu with rfl | hlt
  · exact le_refl _
  · have := validStarts_chain hv u u' hlt hu'
    omega

/-- A cell strictly between the runs before `t` and the runs from `t` on is
not covered. -/
theorem gap_not_covered {c s : List Nat} {L : Nat} (hv : ValidStarts c L s)
    {q t : Nat}
    (hlo : ∀ u, u < t → u < c.length → s.getD u 0 + c.getD u 0 ≤ q)
    (hhi : ∀ u, t ≤ u → u < c.length → q < s.getD u 0) :
    coversB c s q = false := by
  rw [← Bool.not_eq_true, coversB_iff hv.1]
  rintro ⟨u, hu, h1, h2⟩
  rcases Nat.lt_or_ge u t with hut | hut
  · have := hlo u hut hu
    omega
  · have := hhi u hut hu
    omega

theorem constraint_left_last {c : List Nat} (hc : c ≠ []) :
    constraint_left c (c.length - 1) + c.getD (c.length - 1) 0 =
      c.sum + c.length - 1 := by
  have hw : 0 < c.length := List.length_pos.mpr hc
  have h1 := constraint_left_add_drop (c := c) (i := c.length - 1) (by omega)
  have hd : c.drop (c.length - 1) = [c.getD (c.length - 1) 0] := by
    rw [List.getD_eq_getElem c 0 (by omega)]
    rw [List.drop_eq_getElem_cons (by omega)]
    congr 1
    apply List.drop_eq_nil_of_le
    omega
  rw [hd] at h1
  simp only [List.sum_cons, List.sum_nil, add_zero] at h1
  omega

/-- A whole chain of viable nodes and valid edges is a satisfying
placement of the constraints over the partial line. -/
theorem chain_sat {c : List Nat} {l : List Cell}
    (hfit : c.sum + c.length ≤ l.length + 1) (hc : c ≠ []) {js : List Nat}
    (hch : GoodChain c l c.length (l.length + 1 - c.sum - c.length + 1) js) :
    Sat c l (chainStarts c js) := by
  obtain ⟨hlen, hnode, hedge⟩ := hch
  have hw : 0 < c.length := List.length_pos.mpr hc
  have hsl : (chainStarts c js).length = c.length := by simp [chainStarts]
  have hgetS : ∀ t, t < c.length →
      (chainStarts c js).getD t 0 = constraint_left c t + js.getD t 0 :=
    fun t ht => range_map_getD ht
  have hend : ∀ t, t < c.length →
      constraint_left c t + js.getD t 0 + c.getD t 0 ≤ l.length := by
    intro t ht
    have hb := (hnode t ht).1
    have hj : js.getD t 0 + c.sum + c.length ≤ l.length + 1 := by omega
    have := node_range_le (L := l.length) hfit ht hj
    omega
  refine ⟨⟨by rw [hsl], ?_, ?_⟩, ?_⟩
  · intro t ht ht1
    rw [hsl] at ht ht1
    rw [hgetS t (by omega), hgetS (t + 1) (by omega)]
    have hcl := constraint_left_succ (c := c) (i := t) (by omega)
    have hmono := (hedge t (by omega)).1
    omega
  · intro t ht
    rw [hsl] at ht
    rw [hgetS t ht]
    have := hend t ht
    omega
  · intro p hp hne
    rw [render_getCell hp]
    cases hcell : getCell l p with
    | unknown => exact absurd hcell hne
    | empty =>
      by_cases hcov : coversB c (chainStarts c js) p = true
      · obtain ⟨t, ht, h1, h2⟩ := (coversB_iff (by rw [hsl])).mp hcov
        have hcf := (node_viable_iff.mp (hnode t ht).2).1
        have hin := (can_fit_iff.mp hcf).2.2.2
        rw [hgetS t ht] at h1 h2
        exact absurd hcell (hin p h1 h2)
      · simp [hcov]
    | filled =>
      by_cases hcov : coversB c (chainStarts c js) p = true
      · simp [hcov]
      · exfalso
        by_cases hs0 : (chainStarts c js).getD 0 0 ≤ p
        · -- p lies at or after the start of the first run
          set T := Nat.findGreatest
            (fun t => (chainStarts c js).getD t 0 ≤ p) (c.length - 1) with hT
          have hTP : (chainStarts c js).getD T 0 ≤ p := by
            rw [hT]
            exact Nat.findGreatest_spec
              (P := fun t => (chainStarts c js).getD t 0 ≤ p) (Nat.zero_le _) hs0
          have hTle : T ≤ c.length - 1 := by
            rw [hT]
            exact Nat.findGreatest_le _
          have hTlt : T < c.length := by omega
          have hTgt : ∀ u, T < u → u ≤ c.length - 1 →
              ¬((chainStarts c js).getD u 0 ≤ p) := by
            intro u hu1 hu2
            rw [hT] at hu1
            exact Nat.findGreatest_is_greatest
              (P := fun t => (chainStarts c js).getD t 0 ≤ p) hu1 hu2
          have hpend : (chainStarts c js).getD T 0 + c.getD T 0 ≤ p := by
            by_contra hcon
            exact hcov ((coversB_iff (by rw [hsl])).mpr ⟨T, hTlt, hTP, by omega⟩)
          have hcfT := (node_viable_iff.mp (hnode T hTlt).2).1
          rw [hgetS T hTlt] at hTP hpend
          by_cases hTlast : T = c.length - 1
          · -- p lies after the last run
            have hendeq := constraint_left_last hc
            rcases Nat.eq_or_lt_of_le hpend with hpe | hpgt
            · -- p is the separator right after the run
              have := (can_fit_iff.mp hcfT).2.2.1
              rw [hpe] at this
              exact this hp hcell
            · -- p is further right: the last-node check covers it
              have hVr := (node_viable_iff.mp (hnode T hTlt).2).2.2
              rw [← hTlast] at hendeq
              have hb := (hnode T hTlt).1
              refine hVr hTlast (by omega) p (by omega) (by omega) hcell
          · -- some run follows run T
            have hT1 : T + 1 < c.length := by omega
            have hplt : p < (chainStarts c js).getD (T + 1) 0 := by
              have := hTgt (T + 1) (by omega) (by omega)
              omega
            rw [hgetS (T + 1) hT1] at hplt
            have hcl := constraint_left_succ (c := c) (i := T) (by omega)
            have hmono := (hedge T hT1).1
            rcases Nat.eq_or_lt_of_le hpend with hpe | hpgt
            · have := (can_fit_iff.mp hcfT).2.2.1
              rw [hpe] at this
              exact this (by omega) hcell
            · by_cases hpsep : p + 1 = constraint_left c (T + 1) + js.getD (T + 1) 0
              · -- p is the separator right before run T+1
                have hcfT1 := (node_viable_iff.mp (hnode (T + 1) hT1).2).1
                have := (can_fit_iff.mp hcfT1).2.1
                have hpos1 : 0 < constraint_left c (T + 1) + js.getD (T + 1) 0 := by
                  unfold constraint_left
                  omega
                have hcontra := this hpos1
                have hpeq : constraint_left c (T + 1) + js.getD (T + 1) 0 - 1 = p := by
                  omega
                rw [hpeq] at hcontra
                exact hcontra hcell
              · -- p lies strictly inside the gap: the edge check covers it
                have hE := determine_edge_iff.mp (hedge T hT1).2
                exact hE p (by omega) (by omega) hcell
        · -- p lies left of the first run
          rw [hgetS 0 hw] at hs0
          have hleft0 : constraint_left c 0 = 0 := by
            simp [constraint_left]
          rw [hleft0, Nat.zero_add] at hs0
          have hcf0 := (node_viable_iff.mp (hnode 0 hw).2).1
          by_cases hpsep : p + 1 = js.getD 0 0
          · have := (can_fit_iff.mp hcf0).2.1
            rw [hleft0, Nat.zero_add] at this
            have hcontra := this (by omega)
            have hpeq : js.getD 0 0 - 1 = p := by omega
            rw [hpeq] at hcontra
            exact hcontra hcell
          · have hV2 := (node_viable_iff.mp (hnode 0 hw).2).2.1
            exact hV2 rfl (by omega) p (by omega) hcell

theorem drop_sum_succ {c : List Nat} {t : Nat} (ht : t < c.length) :
    (c.drop t).sum = c.getD t 0 + (c.drop (t + 1)).sum := by
  rw [List.getD_eq_getElem c 0 ht, List.drop_eq_getElem_cons ht, List.sum_cons]

/-- A satisfying placement yields a whole chain of viable nodes and valid
edges, with matching start positions. -/
theorem sat_chain {c : List Nat} {l : List Cell} (hc : c ≠ []) {s : List Nat}
    (hs : Sat c l s) :
    GoodChain c l c.length (l.length + 1 - c.sum - c.length + 1)
      (satOffsets c s) ∧
    ∀ t, t < c.length →
      s.getD t 0 = constraint_left c t + (satOffsets c s).getD t 0 := by
  obtain ⟨hval, hcompat⟩ := hs
  have hw : 0 < c.length := List.length_pos.mpr hc
  obtain ⟨hslen, hsp, hinl⟩ := hval
  have hchain := validStarts_chain ⟨hslen, hsp, hinl⟩
  have hmono := validStarts_mono ⟨hslen, hsp, hinl⟩
  have hleft : ∀ t, t < c.length → constraint_left c t ≤ s.getD t 0 := by
    intro t
    induction t with
    | zero =>
      intro _
      simp [constraint_left]
    | succ t ih =>
      intro ht
      have h1 := ih (by omega)
      have h2 := hsp t (by omega) (by omega)
      have h3 := constraint_left_succ (c := c) (i := t) (by omega)
      omega
  have hright : ∀ n t, t < c.length → c.length - t ≤ n →
      s.getD t 0 + (c.drop t).sum + (c.length - t) ≤ l.length + 1 := by
    intro n
    induction n with
    | zero => intro t ht hn; omega
    | succ n ih =>
      intro t ht hn
      by_cases hlast : t = c.length - 1
      · subst hlast
        have h1 := hinl (c.length - 1) (by omega)
        have h2 := drop_sum_succ (c := c) (t := c.length - 1) (by omega)
        have h3 : c.drop (c.length - 1 + 1) = [] :=
          List.drop_eq_nil_of_le (by omega)
        rw [h3] at h2
        simp only [List.sum_nil, add_zero] at h2
        omega
      · have ht1 : t + 1 < c.length := by omega
        have h1 := ih (t + 1) ht1 (by omega)
        have h2 := hsp t (by omega) (by omega)
        have h3 := drop_sum_succ (c := c) (t := t) (by omega)
        omega
  have hfit : c.sum + c.length ≤ l.length + 1 := by
    have h1 := hright c.length 0 hw (by omega)
    simp only [List.drop_zero, Nat.sub_zero] at h1
    have h2 := hleft 0 hw
    omega
  have hgetO : ∀ t, t < c.length →
      (satOffsets c s).getD t 0 = s.getD t 0 - constraint_left c t :=
    fun t ht => range_map_getD ht
  have hseq : ∀ t, t < c.length →
      s.getD t 0 = constraint_left c t + (satOffsets c s).getD t 0 := by
    intro t ht
    rw [hgetO t ht]
    have := hleft t ht
    omega
  have hbound : ∀ t, t < c.length →
      (satOffsets c s).getD t 0 < l.length + 1 - c.sum - c.length + 1 := by
    intro t ht
    rw [hgetO t ht]
    have h1 := hright c.length t ht (by omega)
    have h2 : (c.take t).sum + (c.drop t).sum = c.sum := by
      rw [← List.sum_append, List.take_append_drop]
    have h3 : constraint_left c t = t + (c.take t).sum := rfl
    omega
  -- covered cells are not declared empty, uncovered ones not filled
  have hnotF : ∀ p, p < l.length → coversB c s p = false →
      getCell l p ≠ Cell.filled := by
    intro p hp hcov hcell
    have := hcompat p hp (by rw [hcell]; exact fun hcontra => by cases hcontra)
    rw [render_getCell hp, hcell] at this
    rw [hcov] at this
    cases this
  have hnotE : ∀ p, p < l.length → coversB c s p = true →
      getCell l p ≠ Cell.empty := by
    intro p hp hcov hcell
    have := hcompat p hp (by rw [hcell]; exact fun hcontra => by cases hcontra)
    rw [render_getCell hp, hcell, hcov] at this
    cases this
  refine ⟨⟨by simp [satOffsets], ?_, ?_⟩, hseq⟩
  · -- every node of the chain is viable
    intro t ht
    refine ⟨hbound t ht, ?_⟩
    rw [node_viable_iff]
    have hst := hseq t ht
    have hendt := hinl t (by omega)
    refine ⟨?_, ?_, ?_⟩
    · rw [can_fit_iff, ← hst]
      refine ⟨hendt, ?_, ?_, ?_⟩
      · intro hpos
        apply hnotF _ (by omega)
        apply gap_not_covered ⟨hslen, hsp, hinl⟩ (t := t)
        · intro u hu huw
          have := hchain u t hu ht
          omega
        · intro u hu huw
          have := hmono t u hu huw
          omega
      · intro hlt
        apply hnotF _ (by omega)
        apply gap_not_covered ⟨hslen, hsp, hinl⟩ (t := t + 1)
        · intro u hu huw
          rcases Nat.lt_or_ge u t with hut | hut
          · have := hchain u t hut ht
            omega
          · have hut' : u = t := by omega
            subst hut'
            omega
        · intro u hu huw
          have := hchain t u (by omega) huw
          omega
      · intro q hq1 hq2
        apply hnotE _ (by omega)
        rw [coversB_iff hslen]
        exact ⟨t, ht, hq1, hq2⟩
    · -- first-node check
      intro ht0 hj1 q hq
      subst ht0
      have hl0 : constraint_left c 0 = 0 := by simp [constraint_left]
      rw [hgetO 0 ht, hl0] at hq
      have hq' : q < s.getD 0 0 := by omega
      apply hnotF _ (by omega)
      apply gap_not_covered ⟨hslen, hsp, hinl⟩ (t := 0)
      · intro u hu huw
        omega
      · intro u hu huw
        have := hmono 0 u (by omega) huw
        omega
    · -- last-node check
      intro htl hj2 q hq1 hq2
      subst htl
      have hendeq := constraint_left_last hc
      have hgo := hgetO (c.length - 1) ht
      have hlf := hleft (c.length - 1) ht
      have hq1' : s.getD (c.length - 1) 0 + c.getD (c.length - 1) 0 < q := by
        omega
      apply hnotF _ (by omega)
      apply gap_not_covered ⟨hslen, hsp, hinl⟩ (t := c.length)
      · intro u hu huw
        rcases Nat.lt_or_ge u (c.length - 1) with hut | hut
        · have := hchain u (c.length - 1) hut ht
          omega
        · have hut' : u = c.length - 1 := by omega
          subst hut'
          omega
      · intro u hu huw
        omega
  · -- edges between consecutive nodes
    intro t ht
    have hmt : (satOffsets c s).getD t 0 ≤ (satOffsets c s).getD (t + 1) 0 := by
      rw [hgetO t (by omega), hgetO (t + 1) ht]
      have h1 := hsp t (by omega) (by omega)
      have h2 := constraint_left_succ (c := c) (i := t) (by omega)
      have h3 := hleft t (by omega)
      have h4 := hleft (t + 1) ht
      omega
    refine ⟨hmt, ?_⟩
    rw [determine_edge_iff]
    intro x hx1 hx2
    have hst := hseq t (by omega)
    have hst1 := hseq (t + 1) ht
    have hcl := constraint_left_succ (c := c) (i := t) (by omega)
    have hxlt : x < s.getD (t + 1) 0 := by omega
    have hxgt : s.getD t 0 + c.getD t 0 ≤ x := by omega
    have hxL : x < l.length := by
      have := hinl (t + 1) (by omega)
      omega
    apply hnotF _ hxL
    apply gap_not_covered ⟨hslen, hsp, hinl⟩ (t := t + 1)
    · intro u hu huw
      rcases Nat.lt_or_ge u t with hut | hut
      · have := hchain u t hut (by omega)
        omega
      · have hut' : u = t := by omega
        subst hut'
        omega
    · intro u hu huw
      have := hmono (t + 1) u hu huw
      omega

/-! ### The marking pass -/

theorem mark_empty_get (nv : Nat → Bool × Bool) (s : List Nat) (q : Nat) :
    mark_empty nv s q = ((decide (q ∈ s) || (nv q).1), (nv q).2) := by
  induction s generalizing nv with
  | nil => simp [mark_empty]
  | cons p s ih =>
    show mark_empty (fun q => if q = p then (true, (nv p).2) else nv q) s q = _
    rw [ih]
    by_cases hqp : q = p
    · subst hqp
      simp
    · simp only [if_neg hqp, List.mem_cons]
      by_cases hqs : q ∈ s <;> simp [hqs, hqp]

theorem mark_filled_get (nv : Nat → Bool × Bool) (s : List Nat) (q : Nat) :
    mark_filled nv s q = ((nv q).1, (decide (q ∈ s) || (nv q).2)) := by
  induction s generalizing nv with
  | nil => simp [mark_filled]
  | cons p s ih =>
    show mark_filled (fun q => if q = p then ((nv p).1, true) else nv q) s q = _
    rw [ih]
    by_cases hqp : q = p
    · subst hqp
      simp
    · simp only [if_neg hqp, List.mem_cons]
      by_cases hqs : q ∈ s <;> simp [hqs, hqp]

/-- The `k` chosen by the inter-run marking of node `(i, j)`: the largest
next-layer node recorded reachable. -/
def kmax (h : Nat) (d : Table) (i j : Nat) : Option Nat :=
  ((List.range' j (h - j)).filter
    (fun k => decide (d (i + 1) k = some true))).max?

/-- Cells whose `can_be_filled` flag `mark_node` raises for node `(i, j)`:
the run itself. -/
def fillMarkCond (c : List Nat) (i j p : Nat) : Prop :=
  constraint_left c i + j ≤ p ∧ p < constraint_left c i + j + c.getD i 0

/-- Cells whose `can_be_empty` flag `mark_node` raises for node `(i, j)`:
everything left of the first run, the separator before a later run,
everything right of the last run, the separator after an earlier run, and
the gap up to the largest recorded next-layer node. -/
def emptyMarkCond (c : List Nat) (L w h : Nat) (d : Table) (i j p : Nat) :
    Prop :=
  (i = 0 ∧ p < constraint_left c i + j) ∨
  (i ≠ 0 ∧ 0 < constraint_left c i + j ∧ p = constraint_left c i + j - 1) ∨
  (i = w - 1 ∧ constraint_left c i + j + c.getD i 0 ≤ p ∧ p < L) ∨
  (i ≠ w - 1 ∧ constraint_left c i + j + c.getD i 0 < L ∧
    p = constraint_left c i + j + c.getD i 0) ∨
  (i < w - 1 ∧ ∃ km, kmax h d i j = some km ∧ j + 1 < km ∧
    constraint_left c i + c.getD i 0 + j + 1 ≤ p ∧
    p < constraint_left c i + c.getD i 0 + j + 1 + (km - j - 1))

theorem mark_node_none_iff {c : List Nat} {L w h : Nat} {d : Table}
    {i j : Nat} {nv : Nat → Bool × Bool} :
    mark_node c L w h d i j nv = none ↔ i < w - 1 ∧ kmax h d i j = none := by
  unfold mark_node
  dsimp only
  by_cases hiw : i < w - 1
  · rw [if_pos hiw]
    cases hkm : ((List.range' j (h - j)).filter
        (fun k => decide (d (i + 1) k = some true))).max? with
    | none => simp [hiw, kmax, hkm]
    | some km =>
      cases hger : get_edge_range c i j km with
      | none => simp [hiw, kmax, hkm, hger]
      | some r => simp [hiw, kmax, hkm, hger]
  · rw [if_neg hiw]
    simp [hiw]

theorem mark_node_spec {c : List Nat} {L w h : Nat} {d : Table} {i j : Nat}
    {nv nv' : Nat → Bool × Bool}
    (hmn : mark_node c L w h d i j nv = some nv') (p : Nat) :
    ((nv' p).1 = true ↔ emptyMarkCond c L w h d i j p ∨ (nv p).1 = true) ∧
    ((nv' p).2 = true ↔ fillMarkCond c i j p ∨ (nv p).2 = true) := by
  unfold mark_node at hmn
  dsimp only at hmn
  have hnr : (get_node_range c i j).1 = constraint_left c i + j := rfl
  have hnr2 : (get_node_range c i j).2 =
    constraint_left c i + j + c.getD i 0 := rfl
  -- the three cumulative tables
  set nv1 := (if i = 0 then mark_empty nv (List.range (get_node_range c i j).1)
    else if 0 < (get_node_range c i j).1 then
      mark_empty nv [(get_node_range c i j).1 - 1] else nv) with hnv1
  set nv2 := (if i = w - 1 then
      mark_empty nv1 (List.range' (get_node_range c i j).2
        (L - (get_node_range c i j).2))
    else if (get_node_range c i j).2 < L then
      mark_empty nv1 [(get_node_range c i j).2] else nv1) with hnv2
  set nv3 := mark_filled nv2 (List.range' (get_node_range c i j).1
    ((get_node_range c i j).2 - (get_node_range c i j).1)) with hnv3
  have h1fst : (nv1 p).1 = true ↔
      ((i = 0 ∧ p < constraint_left c i + j) ∨
        (i ≠ 0 ∧ 0 < constraint_left c i + j ∧
          p = constraint_left c i + j - 1)) ∨ (nv p).1 = true := by
    rw [hnv1]
    by_cases hi0 : i = 0
    · rw [if_pos hi0, mark_empty_get]
      simp only [List.mem_range, hnr, Bool.or_eq_true, decide_eq_true_eq]
      constructor
      · rintro (hp | hv)
        · exact Or.inl (Or.inl ⟨hi0, hp⟩)
        · exact Or.inr hv
      · rintro ((⟨_, hp⟩ | ⟨hne, _, _⟩) | hv)
        · exact Or.inl hp
        · exact absurd hi0 hne
        · exact Or.inr hv
    · rw [if_neg hi0]
      by_cases hpos : 0 < (get_node_range c i j).1
      · rw [if_pos hpos, mark_empty_get]
        rw [hnr] at hpos
        simp only [List.mem_singleton, hnr, Bool.or_eq_true, decide_eq_true_eq]
        constructor
        · rintro (hp | hv)
          · exact Or.inl (Or.inr ⟨hi0, hpos, hp⟩)
          · exact Or.inr hv
        · rintro ((⟨h0, _⟩ | ⟨_, _, hp⟩) | hv)
          · exact absurd h0 hi0
          · exact Or.inl hp
          · exact Or.inr hv
      · rw [if_neg hpos]
        rw [hnr] at hpos
        constructor
        · intro hv
          exact Or.inr hv
        · rintro (hcase | hv)
          · rcases hcase with ⟨h1, _⟩ | ⟨_, h2, _⟩
            · exact absurd h1 hi0
            · omega
          · exact hv
  have h1snd : (nv1 p).2 = (nv p).2 := by
    rw [hnv1]
    by_cases hi0 : i = 0
    · rw [if_pos hi0, mark_empty_get]
    · rw [if_neg hi0]
      by_cases hpos : 0 < (get_node_range c i j).1
      · rw [if_pos hpos, mark_empty_get]
      · rw [if_neg hpos]
  have h2fst : (nv2 p).1 = true ↔
      ((i = w - 1 ∧ constraint_left c i + j + c.getD i 0 ≤ p ∧ p < L) ∨
        (i ≠ w - 1 ∧ constraint_left c i + j + c.getD i 0 < L ∧
          p = constraint_left c i + j + c.getD i 0)) ∨ (nv1 p).1 = true := by
    rw [hnv2]
    by_cases hiw : i = w - 1
    · rw [if_pos hiw, mark_empty_get]
      simp only [List.mem_range'_1, hnr2, Bool.or_eq_true, decide_eq_true_eq]
      constructor
      · rintro (⟨ha, hb⟩ | hv)
        · exact Or.inl (Or.inl ⟨hiw, ha, by omega⟩)
        · exact Or.inr hv
      · rintro ((⟨_, ha, hb⟩ | ⟨hne, _, _⟩) | hv)
        · exact Or.inl ⟨ha, by omega⟩
        · exact absurd hiw hne
        · exact Or.inr hv
    · rw [if_neg hiw]
      by_cases hlt : (get_node_range c i j).2 < L
      · rw [if_pos hlt, mark_empty_get]
        rw [hnr2] at hlt
        simp only [List.mem_singleton, hnr2, Bool.or_eq_true, decide_eq_true_eq]
        constructor
        · rintro (hp | hv)
          · exact Or.inl (Or.inr ⟨hiw, hlt, hp⟩)
          · exact Or.inr hv
        · rintro ((⟨hne, _, _⟩ | ⟨_, _, hp⟩) | hv)
          · exact absurd hne hiw
          · exact Or.inl hp
          · exact Or.inr hv
      · rw [if_neg hlt]
        rw [hnr2] at hlt
        constructor
        · intro hv
          exact Or.inr hv
        · rintro (hcase | hv)
          · rcases hcase with ⟨h1, _⟩ | ⟨_, h2, _⟩
            · exact absurd h1 hiw
            · omega
          · exact hv
  have h2snd : (nv2 p).2 = (nv1 p).2 := by
    rw [hnv2]
    by_cases hiw : i = w - 1
    · rw [if_pos hiw, mark_empty_get]
    · rw [if_neg hiw]
      by_cases hlt : (get_node_range c i j).2 < L
      · rw [if_pos hlt, mark_empty_get]
      · rw [if_neg hlt]
  have h3fst : (nv3 p).1 = (nv2 p).1 := by
    rw [hnv3, mark_filled_get]
  have h3snd : (nv3 p).2 = true ↔ fillMarkCond c i j p ∨ (nv2 p).2 = true := by
    rw [hnv3, mark_filled_get]
    simp only [List.mem_range'_1, hnr, hnr2, fillMarkCond, Bool.or_eq_true,
      decide_eq_true_eq]
    constructor
    · rintro (⟨ha, hb⟩ | hv)
      · exact Or.inl ⟨ha, by omega⟩
      · exact Or.inr hv
    · rintro (⟨ha, hb⟩ | hv)
      · exact Or.inl ⟨ha, by omega⟩
      · exact Or.inr hv
  -- now the final edge-gap marking
  by_cases hiw : i < w - 1
  · rw [if_pos hiw] at hmn
    cases hkm : ((List.range' j (h - j)).filter
        (fun k => decide (d (i + 1) k = some true))).max? with
    | none => rw [hkm] at hmn; cases hmn
    | some km =>
      rw [hkm] at hmn
      dsimp only at hmn
      have hkmx : kmax h d i j = some km := by rw [kmax, hkm]
      cases hger : get_edge_range c i j km with
      | none =>
        rw [hger] at hmn
        injection hmn with hmn
        subst hmn
        have hle : km ≤ j + 1 := by
          by_contra hgt
          unfold get_edge_range at hger
          rw [if_neg (by omega)] at hger
          cases hger
        constructor
        · rw [h3fst, h2fst, h1fst]
          unfold emptyMarkCond
          constructor
          · rintro ((hc3 | hc4) | (hc1 | hc2) | hv)
            · exact Or.inl (Or.inr (Or.inr (Or.inl hc3)))
            · exact Or.inl (Or.inr (Or.inr (Or.inr (Or.inl hc4))))
            · exact Or.inl (Or.inl hc1)
            · exact Or.inl (Or.inr (Or.inl hc2))
            · exact Or.inr hv
          · rintro (hcond | hv)
            · rcases hcond with hc1 | hc2 | hc3 | hc4 | hc5
              · exact Or.inr (Or.inl (Or.inl hc1))
              · exact Or.inr (Or.inl (Or.inr hc2))
              · exact Or.inl (Or.inl hc3)
              · exact Or.inl (Or.inr hc4)
              · obtain ⟨_, km', hkm', hlt', _, _⟩ := hc5
                rw [hkmx] at hkm'
                injection hkm' with hkm'
                omega
            · exact Or.inr (Or.inr hv)
        · rw [h3snd, h2snd, h1snd]
      | some r =>
        rw [hger] at hmn
        injection hmn with hmn
        subst hmn
        unfold get_edge_range at hger
        by_cases hle : km ≤ j + 1
        · rw [if_pos hle] at hger
          cases hger
        · rw [if_neg hle] at hger
          injection hger with hger
          subst hger
          constructor
          · rw [mark_empty_get]
            simp only [Bool.or_eq_true, decide_eq_true_eq, List.mem_range'_1]
            rw [h3fst]
            constructor
            · rintro (hgap | hrest)
              · refine Or.inl (Or.inr (Or.inr (Or.inr (Or.inr
                  ⟨hiw, km, hkmx, by omega, by simpa using hgap.1, ?_⟩))))
                have h2 := hgap.2
                omega
              · rcases h2fst.mp hrest with (hc3 | hc4) | h1rest
                · exact Or.inl (Or.inr (Or.inr (Or.inl hc3)))
                · exact Or.inl (Or.inr (Or.inr (Or.inr (Or.inl hc4))))
                · rcases h1fst.mp h1rest with (hc1 | hc2) | hv
                  · exact Or.inl (Or.inl hc1)
                  · exact Or.inl (Or.inr (Or.inl hc2))
                  · exact Or.inr hv
            · rintro (hcond | hv)
              · rcases hcond with hc1 | hc2 | hc3 | hc4 | hc5
                · exact Or.inr (h2fst.mpr (Or.inr (h1fst.mpr
                    (Or.inl (Or.inl hc1)))))
                · exact Or.inr (h2fst.mpr (Or.inr (h1fst.mpr
                    (Or.inl (Or.inr hc2)))))
                · exact Or.inr (h2fst.mpr (Or.inl (Or.inl hc3)))
                · exact Or.inr (h2fst.mpr (Or.inl (Or.inr hc4)))
                · obtain ⟨_, km', hkm', hlt', hp1, hp2⟩ := hc5
                  rw [hkmx] at hkm'
                  injection hkm' with hkm'
                  subst hkm'
                  refine Or.inl ⟨by simpa using hp1, ?_⟩
                  omega
              · exact Or.inr (h2fst.mpr (Or.inr (h1fst.mpr (Or.inr hv))))
          · rw [mark_empty_get]
            show (nv3 p).2 = true ↔ _
            rw [h3snd, h2snd, h1snd]
  · rw [if_neg hiw] at hmn
    injection hmn with hmn
    subst hmn
    constructor
    · rw [h3fst, h2fst, h1fst]
      unfold emptyMarkCond
      constructor
      · rintro ((hc3 | hc4) | (hc1 | hc2) | hv)
        · exact Or.inl (Or.inr (Or.inr (Or.inl hc3)))
        · exact Or.inl (Or.inr (Or.inr (Or.inr (Or.inl hc4))))
        · exact Or.inl (Or.inl hc1)
        · exact Or.inl (Or.inr (Or.inl hc2))
        · exact Or.inr hv
      · rintro (hcond | hv)
        · rcases hcond with hc1 | hc2 | hc3 | hc4 | hc5
          · exact Or.inr (Or.inl (Or.inl hc1))
          · exact Or.inr (Or.inl (Or.inr hc2))
          · exact Or.inl (Or.inl hc3)
          · exact Or.inl (Or.inr hc4)
          · exact absurd hc5.1 hiw
        · exact Or.inr (Or.inr hv)
    · rw [h3snd, h2snd, h1snd]

theorem mark_inner_none (c : List Nat) (L w h : Nat) (d : Table) (i : Nat) :
    ∀ (ks : List Nat),
    ks.foldl (fun acc2 j => match acc2 with
      | none => none
      | some nv => if d i j = some true then mark_node c L w h d i j nv
          else some nv) none = none := by
  intro ks
  induction ks with
  | nil => rfl
  | cons k ks ih => exact ih

theorem mark_inner_spec {c : List Nat} {L w h : Nat} {d : Table} {i : Nat} :
    ∀ (ks : List Nat) (acc : Option (Nat → Bool × Bool))
      (nv1 : Nat → Bool × Bool),
    ks.foldl (fun acc2 j => match acc2 with
      | none => none
      | some nv => if d i j = some true then mark_node c L w h d i j nv
          else some nv) acc = some nv1 →
    ∃ nv0, acc = some nv0 ∧ ∀ p,
      ((nv1 p).1 = true ↔ (∃ j ∈ ks, d i j = some true ∧
        emptyMarkCond c L w h d i j p) ∨ (nv0 p).1 = true) ∧
      ((nv1 p).2 = true ↔ (∃ j ∈ ks, d i j = some true ∧
        fillMarkCond c i j p) ∨ (nv0 p).2 = true) := by
  intro ks
  induction ks with
  | nil =>
    intro acc nv1 hfold
    refine ⟨nv1, hfold, fun p => ?_⟩
    simp
  | cons k ks ih =>
    intro acc nv1 hfold
    rw [List.foldl_cons] at hfold
    cases acc with
    | none =>
      rw [show ((match (none : Option (Nat → Bool × Bool)) with
        | none => none
        | some nv => if d i k = some true then mark_node c L w h d i k nv
            else some nv) = none) from rfl] at hfold
      rw [mark_inner_none] at hfold
      cases hfold
    | some nv0 =>
      dsimp only at hfold
      by_cases hdk : d i k = some true
      · rw [if_pos hdk] at hfold
        obtain ⟨nvmid, hmid, hchar⟩ := ih _ _ hfold
        refine ⟨nv0, rfl, fun p => ?_⟩
        obtain ⟨hch1, hch2⟩ := hchar p
        have hmn := mark_node_spec hmid p
        constructor
        · rw [hch1]
          constructor
          · rintro (⟨j', hj', hd', hc'⟩ | hmidv)
            · exact Or.inl ⟨j', List.mem_cons_of_mem k hj', hd', hc'⟩
            · rcases (hmn.1.mp hmidv) with hc' | hv
              · exact Or.inl ⟨k, List.mem_cons_self k ks, hdk, hc'⟩
              · exact Or.inr hv
          · rintro (⟨j', hj', hd', hc'⟩ | hv)
            · rcases List.mem_cons.mp hj' with rfl | hj'
              · exact Or.inr (hmn.1.mpr (Or.inl hc'))
              · exact Or.inl ⟨j', hj', hd', hc'⟩
            · exact Or.inr (hmn.1.mpr (Or.inr hv))
        · rw [hch2]
          constructor
          · rintro (⟨j', hj', hd', hc'⟩ | hmidv)
            · exact Or.inl ⟨j', List.mem_cons_of_mem k hj', hd', hc'⟩
            · rcases (hmn.2.mp hmidv) with hc' | hv
              · exact Or.inl ⟨k, List.mem_cons_self k ks, hdk, hc'⟩
              · exact Or.inr hv
          · rintro (⟨j', hj', hd', hc'⟩ | hv)
            · rcases List.mem_cons.mp hj' with rfl | hj'
              · exact Or.inr (hmn.2.mpr (Or.inl hc'))
              · exact Or.inl ⟨j', hj', hd', hc'⟩
            · exact Or.inr (hmn.2.mpr (Or.inr hv))
      · rw [if_neg hdk] at hfold
        obtain ⟨nvmid, hmid, hchar⟩ := ih _ _ hfold
        injection hmid with hmid
        subst hmid
        refine ⟨nv0, rfl, fun p => ?_⟩
        obtain ⟨hch1, hch2⟩ := hchar p
        constructor
        · rw [hch1]
          constructor
          · rintro (⟨j', hj', hd', hc'⟩ | hv)
            · exact Or.inl ⟨j', List.mem_cons_of_mem k hj', hd', hc'⟩
            · exact Or.inr hv
          · rintro (⟨j', hj', hd', hc'⟩ | hv)
            · rcases List.mem_cons.mp hj' with rfl | hj'
              · exact absurd hd' hdk
              · exact Or.inl ⟨j', hj', hd', hc'⟩
            · exact Or.inr hv
        · rw [hch2]
          constructor
          · rintro (⟨j', hj', hd', hc'⟩ | hv)
            · exact Or.inl ⟨j', List.mem_cons_of_mem k hj', hd', hc'⟩
            · exact Or.inr hv
          · rintro (⟨j', hj', hd', hc'⟩ | hv)
            · rcases List.mem_cons.mp hj' with rfl | hj'
              · exact absurd hd' hdk
              · exact Or.inl ⟨j', hj', hd', hc'⟩
            · exact Or.inr hv

theorem mark_all_spec {c : List Nat} {L w h : Nat} {d : Table}
    {nv : Nat → Bool × Bool} (hma : mark_all c L w h d = some nv) (p : Nat) :
    ((nv p).1 = true ↔ ∃ i, i < w ∧ ∃ j, j < h ∧ d i j = some true ∧
      emptyMarkCond c L w h d i j p) ∧
    ((nv p).2 = true ↔ ∃ i, i < w ∧ ∃ j, j < h ∧ d i j = some true ∧
      fillMarkCond c i j p) := by
  unfold mark_all at hma
  have houter : ∀ (is : List Nat) (acc : Option (Nat → Bool × Bool))
      (nv1 : Nat → Bool × Bool),
      is.foldl (fun acc i => (List.range h).foldl (fun acc2 j =>
        match acc2 with
        | none => none
        | some nv => if d i j = some true then mark_node c L w h d i j nv
            else some nv) acc) acc = some nv1 →
      ∃ nv0, acc = some nv0 ∧ ∀ q,
        ((nv1 q).1 = true ↔ (∃ i ∈ is, ∃ j, j < h ∧ d i j = some true ∧
          emptyMarkCond c L w h d i j q) ∨ (nv0 q).1 = true) ∧
        ((nv1 q).2 = true ↔ (∃ i ∈ is, ∃ j, j < h ∧ d i j = some true ∧
          fillMarkCond c i j q) ∨ (nv0 q).2 = true) := by
    intro is
    induction is with
    | nil =>
      intro acc nv1 hfold
      refine ⟨nv1, hfold, fun q => ?_⟩
      simp
    | cons i is ihi =>
      intro acc nv1 hfold
      rw [List.foldl_cons] at hfold
      obtain ⟨nvmid, hmid, hchar⟩ := ihi _ _ hfold
      obtain ⟨nv0, hacc, hinner⟩ := mark_inner_spec _ _ _ hmid
      refine ⟨nv0, hacc, fun q => ?_⟩
      obtain ⟨hch1, hch2⟩ := hchar q
      obtain ⟨hin1, hin2⟩ := hinner q
      constructor
      · rw [hch1, hin1]
        constructor
        · rintro (⟨i', hi', hrest⟩ | ⟨j', hj', hrest⟩ | hv)
          · exact Or.inl ⟨i', List.mem_cons_of_mem i hi', hrest⟩
          · exact Or.inl ⟨i, List.mem_cons_self i is, j',
              List.mem_range.mp hj', hrest⟩
          · exact Or.inr hv
        · rintro (⟨i', hi', j', hj', hrest⟩ | hv)
          · rcases List.mem_cons.mp hi' with rfl | hi'
            · exact Or.inr (Or.inl ⟨j', List.mem_range.mpr hj', hrest⟩)
            · exact Or.inl ⟨i', hi', j', hj', hrest⟩
          · exact Or.inr (Or.inr hv)
      · rw [hch2, hin2]
        constructor
        · rintro (⟨i', hi', hrest⟩ | ⟨j', hj', hrest⟩ | hv)
          · exact Or.inl ⟨i', List.mem_cons_of_mem i hi', hrest⟩
          · exact Or.inl ⟨i, List.mem_cons_self i is, j',
              List.mem_range.mp hj', hrest⟩
          · exact Or.inr hv
        · rintro (⟨i', hi', j', hj', hrest⟩ | hv)
          · rcases List.mem_cons.mp hi' with rfl | hi'
            · exact Or.inr (Or.inl ⟨j', List.mem_range.mpr hj', hrest⟩)
            · exact Or.inl ⟨i', hi', j', hj', hrest⟩
          · exact Or.inr (Or.inr hv)
  obtain ⟨nv0, hacc, hchar⟩ := houter (List.range w) _ nv hma
  have hnv0 : (fun _ => ((false : Bool), (false : Bool))) = nv0 := by
    injection hacc
  obtain ⟨hc1, hc2⟩ := hchar p
  rw [← hnv0] at hc1 hc2
  constructor
  · rw [hc1]
    simp only [Bool.false_eq_true, or_false]
    constructor
    · rintro ⟨i, hi, hrest⟩
      exact ⟨i, List.mem_range.mp hi, hrest⟩
    · rintro ⟨i, hi, hrest⟩
      exact ⟨i, List.mem_range.mpr hi, hrest⟩
  · rw [hc2]
    simp only [Bool.false_eq_true, or_false]
    constructor
    · rintro ⟨i, hi, hrest⟩
      exact ⟨i, List.mem_range.mp hi, hrest⟩
    · rintro ⟨i, hi, hrest⟩
      exact ⟨i, List.mem_range.mpr hi, hrest⟩

theorem mark_all_ne_none {c : List Nat} {L w h : Nat} {d : Table}
    (hchild : ∀ i j, i < w → j < h → d i j = some true → i + 1 < w →
      ∃ k, j ≤ k ∧ k < h ∧ d (i + 1) k = some true) :
    mark_all c L w h d ≠ none := by
  unfold mark_all
  have hinner : ∀ (i : Nat), i < w → ∀ (ks : List Nat),
      (∀ j ∈ ks, j < h) → ∀ (nv0 : Nat → Bool × Bool),
      ks.foldl (fun acc2 j => match acc2 with
        | none => none
        | some nv => if d i j = some true then mark_node c L w h d i j nv
            else some nv) (some nv0) ≠ none := by
    intro i hi ks
    induction ks with
    | nil =>
      intro _ nv0 hcontra
      cases hcontra
    | cons k ks ihk =>
      intro hmem nv0
      rw [List.foldl_cons]
      dsimp only
      by_cases hdk : d i k = some true
      · rw [if_pos hdk]
        cases hmn : mark_node c L w h d i k nv0 with
        | none =>
          rw [mark_node_none_iff] at hmn
          obtain ⟨hiw, hkm⟩ := hmn
          obtain ⟨k', hk1, hk2, hk3⟩ :=
            hchild i k hi (hmem k (List.mem_cons_self k ks)) hdk (by omega)
          rw [kmax, List.max?_eq_none_iff] at hkm
          have hk'mem : k' ∈ (List.range' k (h - k)).filter
              (fun k2 => decide (d (i + 1) k2 = some true)) := by
            rw [List.mem_filter]
            refine ⟨List.mem_range'_1.mpr ⟨hk1, by omega⟩, by simp [hk3]⟩
          rw [hkm] at hk'mem
          cases hk'mem
        | some nv' =>
          exact ihk (fun j hj => hmem j (List.mem_cons_of_mem k hj)) nv'
      · rw [if_neg hdk]
        exact ihk (fun j hj => hmem j (List.mem_cons_of_mem k hj)) nv0
  have houter : ∀ (is : List Nat), (∀ i ∈ is, i < w) →
      ∀ (nv0 : Nat → Bool × Bool),
      is.foldl (fun acc i => (List.range h).foldl (fun acc2 j =>
        match acc2 with
        | none => none
        | some nv => if d i j = some true then mark_node c L w h d i j nv
            else some nv) acc) (some nv0) ≠ none := by
    intro is
    induction is with
    | nil =>
      intro _ nv0 hcontra
      cases hcontra
    | cons i is ihi =>
      intro hmem nv0
      rw [List.foldl_cons]
      cases hstep : (List.range h).foldl (fun acc2 j =>
        match acc2 with
        | none => none
        | some nv => if d i j = some true then mark_node c L w h d i j nv
            else some nv) (some nv0) with
      | none =>
        exact absurd hstep (hinner i (hmem i (List.mem_cons_self i is))
          (List.range h) (fun j hj => List.mem_range.mp hj) nv0)
      | some nv' =>
        exact ihi (fun i' hi' => hmem i' (List.mem_cons_of_mem i hi')) nv'
  exact houter (List.range w) (fun i hi => List.mem_range.mp hi) _


theorem chainStarts_getD {c js : List Nat} {t : Nat} (ht : t < c.length) :
    (chainStarts c js).getD t 0 = constraint_left c t + js.getD t 0 :=
  range_map_getD ht

theorem kmax_ge {h : Nat} {d : Table} {i j k : Nat} (hjk : j ≤ k)
    (hk : k < h) (hd : d (i + 1) k = some true) :
    ∃ km, kmax h d i j = some km ∧ k ≤ km ∧ km < h := by
  have hkmem : k ∈ (List.range' j (h - j)).filter
      (fun k2 => decide (d (i + 1) k2 = some true)) := by
    rw [List.mem_filter]
    exact ⟨List.mem_range'_1.mpr ⟨hjk, by omega⟩, by simp [hd]⟩
  cases hmax : ((List.range' j (h - j)).filter
      (fun k2 => decide (d (i + 1) k2 = some true))).max? with
  | none =>
    rw [List.max?_eq_none_iff] at hmax
    rw [hmax] at hkmem
    cases hkmem
  | some km =>
    have hspec := hmax
    rw [List.max?_eq_some_iff] at hspec
    · obtain ⟨hmem, hmax'⟩ := hspec
      refine ⟨km, by rw [kmax, hmax], hmax' k hkmem, ?_⟩
      have := (List.mem_filter.mp hmem).1
      rw [List.mem_range'_1] at this
      omega
    · exact fun a => le_refl a
    · exact fun a b => max_choice a b
    · exact fun a b c => max_le_iff
  
/-- The `can_be_filled` flag is exact: it is raised exactly on cells some
satisfying placement fills. -/
theorem nv_fill_iff {c : List Nat} {l : List Cell}
    (hfit : c.sum + c.length ≤ l.length + 1) (hc : c ≠ [])
    {nv : Nat → Bool × Bool}
    (hma : mark_all c l.length c.length (l.length + 1 - c.sum - c.length + 1)
      (build_determined c l c.length (l.length + 1 - c.sum - c.length + 1)) =
      some nv)
    {p : Nat} (hp : p < l.length) :
    (nv p).2 = true ↔ ∃ s, Sat c l s ∧
      getCell (renderStarts c s l.length) p = Cell.filled := by
  have hw : 0 < c.length := List.length_pos.mpr hc
  rw [(mark_all_spec hma p).2]
  constructor
  · rintro ⟨i, hi, j, hj, hT, hfill⟩
    obtain ⟨js, hch, hji⟩ := (determined_iff_chain hw hi hj).mp hT
    refine ⟨chainStarts c js, chain_sat hfit hc hch, ?_⟩
    rw [render_getCell hp]
    have hcov : coversB c (chainStarts c js) p = true := by
      rw [coversB_iff (by simp [chainStarts])]
      refine ⟨i, hi, ?_⟩
      rw [chainStarts_getD hi, hji]
      obtain ⟨h1, h2⟩ := hfill
      exact ⟨h1, h2⟩
    rw [hcov]
    rfl
  · rintro ⟨s, hs, hfill⟩
    rw [render_getCell hp] at hfill
    have hcov : coversB c s p = true := by
      by_contra hncov
      rw [Bool.not_eq_true] at hncov
      rw [hncov] at hfill
      cases hfill
    obtain ⟨t, ht, h1, h2⟩ := (coversB_iff hs.1.1).mp hcov
    obtain ⟨hch, hst⟩ := sat_chain hc hs
    have hjt := ((hch.2.1) t ht).1
    refine ⟨t, ht, (satOffsets c s).getD t 0, hjt, ?_, ?_⟩
    · exact (determined_iff_chain hw ht hjt).mpr ⟨satOffsets c s, hch, rfl⟩
    · unfold fillMarkCond
      rw [← hst t ht]
      exact ⟨h1, h2⟩

/-- The `can_be_empty` flag is complete: any cell some satisfying placement
leaves empty has it raised. -/
theorem nv_empty_complete {c : List Nat} {l : List Cell}
    (hfit : c.sum + c.length ≤ l.length + 1) (hc : c ≠ [])
    {nv : Nat → Bool × Bool}
    (hma : mark_all c l.length c.length (l.length + 1 - c.sum - c.length + 1)
      (build_determined c l c.length (l.length + 1 - c.sum - c.length + 1)) =
      some nv)
    {p : Nat} (hp : p < l.length) {s : List Nat} (hs : Sat c l s)
    (hemp : getCell (renderStarts c s l.length) p = Cell.empty) :
    (nv p).1 = true := by
  have hw : 0 < c.length := List.length_pos.mpr hc
  set W := c.length with hW
  set H := l.length + 1 - c.sum - c.length + 1 with hH
  set T := build_determined c l W H with hT
  rw [(mark_all_spec hma p).1]
  rw [render_getCell hp] at hemp
  have hncov : coversB c s p = false := by
    by_contra hcov
    rw [Bool.not_eq_false] at hcov
    rw [hcov] at hemp
    cases hemp
  obtain ⟨hch, hst⟩ := sat_chain hc hs
  have hTt : ∀ t, t < W → T t ((satOffsets c s).getD t 0) = some true :=
    fun t ht => (determined_iff_chain hw ht ((hch.2.1 t ht)).1).mpr
      ⟨satOffsets c s, hch, rfl⟩
  have hbnd : ∀ t, t < W → (satOffsets c s).getD t 0 < H :=
    fun t ht => ((hch.2.1) t ht).1
  have hnc : ∀ t, t < W → ¬(s.getD t 0 ≤ p ∧ p < s.getD t 0 + c.getD t 0) := by
    intro t ht hcontra
    have := (coversB_iff hs.1.1).mpr ⟨t, ht, hcontra.1, hcontra.2⟩
    rw [hncov] at this
    cases this
  have hmono := validStarts_mono hs.1
  have hchain := validStarts_chain hs.1
  by_cases hs0 : s.getD 0 0 ≤ p
  · set G := Nat.findGreatest (fun t => s.getD t 0 ≤ p) (W - 1) with hG
    have hGP : s.getD G 0 ≤ p := by
      rw [hG]
      exact Nat.findGreatest_spec (P := fun t => s.getD t 0 ≤ p)
        (Nat.zero_le _) hs0
    have hGle : G ≤ W - 1 := by
      rw [hG]
      exact Nat.findGreatest_le _
    have hGlt : G < W := by omega
    have hGgt : ∀ u, G < u → u ≤ W - 1 → ¬(s.getD u 0 ≤ p) := by
      intro u hu1 hu2
      rw [hG] at hu1
      exact Nat.findGreatest_is_greatest
        (P := fun t => s.getD t 0 ≤ p) hu1 hu2
    have hpend : s.getD G 0 + c.getD G 0 ≤ p := by
      by_contra hcon
      exact hnc G hGlt ⟨hGP, by omega⟩
    have hsG := hst G hGlt
    by_cases hGlast : G = W - 1
    · -- after the last run: right-of-last marking
      refine ⟨G, hGlt, (satOffsets c s).getD G 0, hbnd G hGlt, hTt G hGlt, ?_⟩
      unfold emptyMarkCond
      refine Or.inr (Or.inr (Or.inl ⟨by omega, by omega, hp⟩))
    · have hG1 : G + 1 < W := by omega
      have hplt : p < s.getD (G + 1) 0 := by
        have := hGgt (G + 1) (by omega) (by omega)
        omega
      have hsG1 := hst (G + 1) hG1
      have hcl := constraint_left_succ (c := c) (i := G) (by omega)
      by_cases hpe : p = s.getD G 0 + c.getD G 0
      · -- separator right after run G
        refine ⟨G, hGlt, (satOffsets c s).getD G 0, hbnd G hGlt, hTt G hGlt, ?_⟩
        unfold emptyMarkCond
        refine Or.inr (Or.inr (Or.inr (Or.inl ⟨by omega, by omega, by omega⟩)))
      · by_cases hpsep : p + 1 = s.getD (G + 1) 0
        · -- separator right before run G + 1
          refine ⟨G + 1, hG1, (satOffsets c s).getD (G + 1) 0,
            hbnd (G + 1) hG1, hTt (G + 1) hG1, ?_⟩
          unfold emptyMarkCond
          have hpos1 : 0 < constraint_left c (G + 1) := by
            unfold constraint_left
            omega
          refine Or.inr (Or.inl ⟨by omega, by omega, by omega⟩)
        · -- strictly inside the gap: the kmax marking reaches it
          have hmj := (hch.2.2) G hG1
          obtain ⟨km, hkm, hkm1, hkm2⟩ := kmax_ge (hmj.1)
            (hbnd (G + 1) hG1) (hTt (G + 1) hG1)
          refine ⟨G, hGlt, (satOffsets c s).getD G 0, hbnd G hGlt,
            hTt G hGlt, ?_⟩
          unfold emptyMarkCond
          refine Or.inr (Or.inr (Or.inr (Or.inr ⟨by omega, km, hkm, ?_, ?_, ?_⟩)))
          · omega
          · omega
          · omega
  · -- left of the first run
    refine ⟨0, hw, (satOffsets c s).getD 0 0, hbnd 0 hw, hTt 0 hw, ?_⟩
    unfold emptyMarkCond
    have hs00 := hst 0 hw
    have hleft0 : constraint_left c 0 = 0 := by simp [constraint_left]
    exact Or.inl ⟨rfl, by omega⟩

/-! ### Assembling the solver -/

theorem decide_cell_cases {pr : Bool × Bool} {v v' : Cell}
    (h : decide_cell pr v = some v') :
    v' = v ∨ (v = Cell.unknown ∧ v' ≠ Cell.unknown) := by
  rcases pr with ⟨e, f⟩
  rcases e <;> rcases f <;> cases v <;>
    simp only [decide_cell] at h <;>
    first
      | (injection h with h; subst h; simp)
      | cases h

theorem getCell_ext {l1 l2 : List Cell} (hlen : l1.length = l2.length)
    (h : ∀ q, getCell l1 q = getCell l2 q) : l1 = l2 := by
  apply List.ext_getElem hlen
  intro q h1 h2
  have := h q
  rwa [getCell, getCell, List.getD_eq_getElem _ _ (by simpa using h1),
    List.getD_eq_getElem _ _ (by simpa using h2)] at this

/-- Non-empty fitting constraints: the solver runs the full pipeline and
the marking pass never panics. -/
theorem try_solve_nonempty {c : List Nat} {l : List Cell} (hc : c ≠ [])
    (hfit : c.sum + c.length ≤ l.length + 1) :
    ∃ nv, mark_all c l.length c.length (l.length + 1 - c.sum - c.length + 1)
        (build_determined c l c.length
          (l.length + 1 - c.sum - c.length + 1)) = some nv ∧
      try_solve_line_complete c l =
        match force_cells nv l.length 0 l with
        | none => SolveResult.contradiction
        | some r => SolveResult.ok r.1 r.2 := by
  have hw : 0 < c.length := List.length_pos.mpr hc
  have hnn := mark_all_ne_none (c := c) (L := l.length) (w := c.length)
    (h := l.length + 1 - c.sum - c.length + 1)
    (d := build_determined c l c.length (l.length + 1 - c.sum - c.length + 1))
    (fun i j hi hj hT hi1 =>
      reach_child c l c.length (l.length + 1 - c.sum - c.length + 1)
        hw hi1 hj hT)
  cases hma : mark_all c l.length c.length
      (l.length + 1 - c.sum - c.length + 1)
      (build_determined c l c.length
        (l.length + 1 - c.sum - c.length + 1)) with
  | none => exact absurd hma hnn
  | some nv =>
    refine ⟨nv, rfl, ?_⟩
    unfold try_solve_line_complete
    rw [if_neg (by simpa using hc), if_neg (by omega)]
    dsimp only
    rw [hma]

theorem ok_fit {c : List Nat} {l : List Cell} {ch : List Nat} {l' : List Cell}
    (hc : c ≠ []) (hok : try_solve_line_complete c l = SolveResult.ok ch l') :
    c.sum + c.length ≤ l.length + 1 := by
  by_contra hover
  unfold try_solve_line_complete at hok
  rw [if_neg (by simpa using hc), if_pos (by omega)] at hok
  cases hok

theorem contradiction_fit {c : List Nat} {l : List Cell} (hc : c ≠ [])
    (hcon : try_solve_line_complete c l = SolveResult.contradiction) :
    c.sum + c.length ≤ l.length + 1 := by
  by_contra hover
  unfold try_solve_line_complete at hcon
  rw [if_neg (by simpa using hc), if_pos (by omega)] at hcon
  cases hcon

theorem coversB_nil {s : List Nat} {p : Nat} : coversB [] s p = false := by
  unfold coversB
  rw [List.zip_nil_right]
  rfl

theorem render_nil {s : List Nat} {L p : Nat} (hp : p < L) :
    getCell (renderStarts [] s L) p = Cell.empty := by
  rw [render_getCell hp, coversB_nil]
  rfl

theorem sat_nil_iff {l : List Cell} :
    (∃ s, Sat [] l s) ↔ ∀ p, p < l.length → getCell l p ≠ Cell.filled := by
  constructor
  · rintro ⟨s, hval, hcompat⟩ p hp hcell
    have := hcompat p hp (by rw [hcell]; exact fun hco => by cases hco)
    rw [render_nil hp, hcell] at this
    cases this
  · intro hnf
    refine ⟨[], ⟨rfl, ?_, ?_⟩, ?_⟩
    · intro i hi
      simp at hi
    · intro i hi
      simp at hi
    · intro p hp hne
      rw [render_nil hp]
      cases hcell : getCell l p with
      | unknown => exact absurd hcell hne
      | empty => rfl
      | filled => exact absurd hcell (hnf p hp)

/-- A node is recorded reachable exactly when a satisfying placement puts
its constraint at its offset. -/
theorem reach_iff_sat {c : List Nat} {l : List Cell}
    (hfit : c.sum + c.length ≤ l.length + 1) (hc : c ≠ [])
    {i j : Nat} (hi : i < c.length)
    (hj : j < l.length + 1 - c.sum - c.length + 1) :
    build_determined c l c.length (l.length + 1 - c.sum - c.length + 1) i j =
      some true ↔
    ∃ s, Sat c l s ∧ s.getD i 0 = constraint_left c i + j := by
  have hw : 0 < c.length := List.length_pos.mpr hc
  rw [determined_iff_chain hw hi hj]
  constructor
  · rintro ⟨js, hch, hji⟩
    refine ⟨chainStarts c js, chain_sat hfit hc hch, ?_⟩
    rw [chainStarts_getD hi, hji]
  · rintro ⟨s, hs, hsi⟩
    obtain ⟨hch, hst⟩ := sat_chain hc hs
    refine ⟨satOffsets c s, hch, ?_⟩
    have := hst i hi
    omega

theorem try_solve_nil {l : List Cell} :
    try_solve_line_complete [] l =
      match force_cells (fun _ => (true, false)) l.length 0 l with
      | none => SolveResult.contradiction
      | some r => SolveResult.ok r.1 r.2 := by
  rw [← solve_empty_case_eq_force]
  rfl

theorem decide_cell_empty_none {v : Cell} :
    decide_cell (true, false) v = none ↔ v = Cell.filled := by
  cases v <;> simp [decide_cell]

/-! ### The claims -/

/-- **C4** (over-constrained lines): when a non-empty constraint list
cannot fit (sum of run lengths plus count minus one exceeds the line
length), `try_solve_line_complete` does not return the contradiction
signal — it panics (the `usize` subtraction computing `extra_space`
underflows).  This contradicts the spec's promise that the solver detects
such lines as unsolvable. -/
theorem C4_overconstrained_panics {c : List Nat} {l : List Cell}
    (hc : c ≠ []) (hover : l.length + 1 < c.sum + c.length) :
    try_solve_line_complete c l = SolveResult.panic := by
  unfold try_solve_line_complete
  rw [if_neg (by simpa using hc), if_pos (by omega)]

theorem C4_overconstrained_panics_witness :
    ([2, 2] : List Nat) ≠ [] ∧
    ([Cell.unknown, Cell.unknown] : List Cell).length + 1 <
      ([2, 2] : List Nat).sum + ([2, 2] : List Nat).length ∧
    try_solve_line_complete [2, 2] [Cell.unknown, Cell.unknown] =
      SolveResult.panic :=
  ⟨by decide, by decide,
    C4_overconstrained_panics (by decide) (by decide)⟩

/-- **C5** (frame contract): whenever `try_solve_line_complete` returns a
list of indices, every reported index is a cell that was Unknown on entry
and is no longer Unknown (hence Empty or Filled) on exit, and every cell
not in the list keeps its entry value; the line length is unchanged. -/
theorem C5_frame_contract {c : List Nat} {l : List Cell}
    {ch : List Nat} {l' : List Cell}
    (hok : try_solve_line_complete c l = SolveResult.ok ch l') :
    (∀ q ∈ ch, q < l.length ∧ getCell l q = Cell.unknown ∧
      getCell l' q ≠ Cell.unknown) ∧
    (∀ q, q ∉ ch → getCell l' q = getCell l q) ∧
    l'.length = l.length := by
  have hforce : ∃ nv : Nat → Bool × Bool,
      force_cells nv l.length 0 l = some (ch, l') := by
    by_cases hcn : c = []
    · subst hcn
      rw [try_solve_nil] at hok
      cases hfc : force_cells (fun _ => (true, false)) l.length 0 l with
      | none => rw [hfc] at hok; cases hok
      | some r =>
        rw [hfc] at hok
        injection hok with h1 h2
        subst h1; subst h2
        exact ⟨_, hfc⟩
    · have hfit := ok_fit hcn hok
      obtain ⟨nv, hma, heq⟩ := try_solve_nonempty hcn hfit
      rw [heq] at hok
      cases hfc : force_cells nv l.length 0 l with
      | none => rw [hfc] at hok; cases hok
      | some r =>
        rw [hfc] at hok
        injection hok with h1 h2
        subst h1; subst h2
        exact ⟨nv, hfc⟩
  obtain ⟨nv, hfc⟩ := hforce
  obtain ⟨ha, hb, hlen, hd⟩ := force_cells_sound (by omega) hfc
  refine ⟨?_, ?_, hlen⟩
  · intro q hq
    obtain ⟨h1, h2, h3, h4⟩ := (hd q).mp hq
    exact ⟨by omega, h3, h4⟩
  · intro q hq
    by_cases hqL : q < l.length
    · have hdc := ha q (by omega) (by omega)
      rcases decide_cell_cases hdc with heq | ⟨hU, hne⟩
      · exact heq
      · exact absurd ((hd q).mpr ⟨by omega, by omega, hU, hne⟩) hq
    · exact hb q (by omega)

theorem C5_frame_contract_witness :
    try_solve_line_complete [3] [Cell.unknown, Cell.unknown, Cell.unknown] =
      SolveResult.ok [0, 1, 2] [Cell.filled, Cell.filled, Cell.filled] ∧
    ((∀ q ∈ ([0, 1, 2] : List Nat),
        q < ([Cell.unknown, Cell.unknown, Cell.unknown] : List Cell).length ∧
        getCell [Cell.unknown, Cell.unknown, Cell.unknown] q = Cell.unknown ∧
        getCell [Cell.filled, Cell.filled, Cell.filled] q ≠ Cell.unknown) ∧
    (∀ q, q ∉ ([0, 1, 2] : List Nat) →
      getCell [Cell.filled, Cell.filled, Cell.filled] q =
        getCell [Cell.unknown, Cell.unknown, Cell.unknown] q) ∧
    ([Cell.filled, Cell.filled, Cell.filled] : List Cell).length =
      ([Cell.unknown, Cell.unknown, Cell.unknown] : List Cell).length) :=
  ⟨by decide, @C5_frame_contract [3]
    [Cell.unknown, Cell.unknown, Cell.unknown] [0, 1, 2]
    [Cell.filled, Cell.filled, Cell.filled] (by decide)⟩

/-- **C6** (empty constraint list): with no constraints the solver returns
the contradiction signal exactly when some cell is Filled; otherwise it
succeeds, every cell (in particular every Unknown cell) is Empty on exit,
and the reported indices are exactly the entry-Unknown cells. -/
theorem C6_empty_constraints (l : List Cell) :
    (try_solve_line_complete [] l = SolveResult.contradiction ↔
      ∃ p, p < l.length ∧ getCell l p = Cell.filled) ∧
    ((∀ p, p < l.length → getCell l p ≠ Cell.filled) →
      ∃ ch l', try_solve_line_complete [] l = SolveResult.ok ch l' ∧
        l'.length = l.length ∧
        (∀ p, p < l.length → getCell l' p = Cell.empty) ∧
        (∀ q, q ∈ ch ↔ q < l.length ∧ getCell l q = Cell.unknown)) := by
  constructor
  · rw [try_solve_nil]
    cases hfc : force_cells (fun _ => (true, false)) l.length 0 l with
    | none =>
      simp only [true_iff]
      obtain ⟨q, h1, h2, h3⟩ := (force_cells_none_iff (by omega)).mp hfc
      rw [decide_cell_empty_none] at h3
      exact ⟨q, by omega, h3⟩
    | some r =>
      simp only [reduceCtorEq, false_iff, not_exists]
      intro p hcontra
      rcases hcontra with ⟨hp, hcell⟩
      have : force_cells (fun _ => (true, false)) l.length 0 l = none :=
        (force_cells_none_iff (by omega)).mpr
          ⟨p, by omega, by omega, by rw [decide_cell_empty_none]; exact hcell⟩
      rw [this] at hfc
      cases hfc
  · intro hnf
    rw [try_solve_nil]
    cases hfc : force_cells (fun _ => (true, false)) l.length 0 l with
    | none =>
      obtain ⟨q, h1, h2, h3⟩ := (force_cells_none_iff (by omega)).mp hfc
      rw [decide_cell_empty_none] at h3
      exact absurd h3 (hnf q (by omega))
    | some r =>
      obtain ⟨ha, hb, hlen, hd⟩ := force_cells_sound (by omega) hfc
      refine ⟨r.1, r.2, rfl, hlen, ?_, ?_⟩
      · intro p hp
        have hdc := ha p (by omega) (by omega)
        cases hcell : getCell l p with
        | filled => exact absurd hcell (hnf p hp)
        | empty =>
          rw [hcell] at hdc
          injection hdc with h'
          exact h'.symm
        | unknown =>
          rw [hcell] at hdc
          injection hdc with h'
          exact h'.symm
      · intro q
        rw [hd q]
        constructor
        · rintro ⟨h1, h2, h3, _⟩
          exact ⟨by omega, h3⟩
        · rintro ⟨h1, h2⟩
          refine ⟨by omega, by omega, h2, ?_⟩
          have hdc := ha q (by omega) (by omega)
          rw [h2] at hdc
          injection hdc with h'
          rw [← h']
          intro hco
          cases hco

/-- **C1** (line solver soundness): if `try_solve_line_complete` succeeds
and reports index `p` (so it changed that cell from Unknown to Empty or
Filled), then every whole-line placement of the constraints consistent
with the prior partial line puts exactly the cell's new value at `p`. -/
theorem C1_line_solver_soundness {c : List Nat} {l : List Cell}
    {ch : List Nat} {l' : List Cell}
    (hok : try_solve_line_complete c l = SolveResult.ok ch l')
    {p : Nat} (hp : p ∈ ch) {s : List Nat} (hs : Sat c l s) :
    getCell (renderStarts c s l.length) p = getCell l' p := by
  by_cases hcn : c = []
  · subst hcn
    rw [try_solve_nil] at hok
    cases hfc : force_cells (fun _ => (true, false)) l.length 0 l with
    | none => rw [hfc] at hok; cases hok
    | some r =>
      rw [hfc] at hok
      injection hok with h1 h2
      subst h1; subst h2
      obtain ⟨ha, hb, hlen, hd⟩ := force_cells_sound (by omega) hfc
      obtain ⟨h1, h2, hU, hne⟩ := (hd p).mp hp
      have hdc := ha p (by omega) (by omega)
      rw [hU] at hdc
      injection hdc with hdc
      rw [render_nil (by omega), ← hdc]
  · have hfit := ok_fit hcn hok
    obtain ⟨nv, hma, heq⟩ := try_solve_nonempty hcn hfit
    rw [heq] at hok
    cases hfc : force_cells nv l.length 0 l with
    | none => rw [hfc] at hok; cases hok
    | some r =>
      rw [hfc] at hok
      injection hok with h1 h2
      subst h1; subst h2
      obtain ⟨ha, hb, hlen, hd⟩ := force_cells_sound (by omega) hfc
      obtain ⟨h1, h2, hU, hne⟩ := (hd p).mp hp
      have hdc := ha p (by omega) (by omega)
      rw [hU] at hdc
      have hpl : p < l.length := by omega
      rcases hnv : nv p with ⟨e, f⟩
      rw [hnv] at hdc
      rcases e <;> rcases f
      · cases hdc
      · -- (false, true): the cell was forced Filled
        injection hdc with hdc
        rw [← hdc]
        by_contra hcon
        have hrend : getCell (renderStarts c s l.length) p = Cell.empty := by
          rw [render_getCell hpl] at hcon ⊢
          cases hcov : coversB c s p with
          | true => rw [hcov] at hcon; simp at hcon
          | false => rfl
        have := nv_empty_complete hfit hcn hma hpl hs hrend
        rw [hnv] at this
        cases this
      · -- (true, false): the cell was forced Empty
        injection hdc with hdc
        rw [← hdc]
        rw [render_getCell hpl]
        cases hcov : coversB c s p with
        | false => rfl
        | true =>
          exfalso
          have hF : getCell (renderStarts c s l.length) p = Cell.filled := by
            rw [render_getCell hpl, hcov]
            rfl
          have := (nv_fill_iff hfit hcn hma hpl).mpr ⟨s, hs, hF⟩
          rw [hnv] at this
          cases this
      · -- (true, true): the cell stays Unknown, not reported
        injection hdc with hdc
        rw [← hdc] at hne
        exact absurd rfl hne

theorem C1_line_solver_soundness_witness :
    try_solve_line_complete [2]
        [Cell.unknown, Cell.unknown, Cell.unknown, Cell.unknown, Cell.filled] =
      SolveResult.ok [0, 1, 2, 3]
        [Cell.empty, Cell.empty, Cell.empty, Cell.filled, Cell.filled] ∧
    (3 : Nat) ∈ ([0, 1, 2, 3] : List Nat) ∧
    Sat [2] [Cell.unknown, Cell.unknown, Cell.unknown, Cell.unknown,
      Cell.filled] [3] ∧
    getCell (renderStarts [2] [3]
      ([Cell.unknown, Cell.unknown, Cell.unknown, Cell.unknown,
        Cell.filled] : List Cell).length) 3 =
      getCell [Cell.empty, Cell.empty, Cell.empty, Cell.filled,
        Cell.filled] 3 :=
  ⟨by decide, by decide, by decide,
    @C1_line_solver_soundness [2]
      [Cell.unknown, Cell.unknown, Cell.unknown, Cell.unknown, Cell.filled]
      [0, 1, 2, 3]
      [Cell.empty, Cell.empty, Cell.empty, Cell.filled, Cell.filled]
      (by decide) 3 (by decide) [3] (by decide)⟩

/-- **C2** (contradiction detection): for fitting constraints (positive run
lengths whose total plus separators fits the line),
`try_solve_line_complete` returns the contradiction signal exactly when no
whole-line placement satisfies the current partial line. -/
theorem C2_contradiction_iff {c : List Nat} {l : List Cell}
    (hpos : ∀ x ∈ c, 0 < x) (hfit : c.sum + c.length ≤ l.length + 1) :
    (try_solve_line_complete c l = SolveResult.contradiction ↔
      ¬ ∃ s, Sat c l s) := by
  by_cases hcn : c = []
  · subst hcn
    rw [sat_nil_iff, try_solve_nil]
    cases hfc : force_cells (fun _ => (true, false)) l.length 0 l with
    | none =>
      simp only [true_iff]
      obtain ⟨q, h1, h2, h3⟩ := (force_cells_none_iff (by omega)).mp hfc
      rw [decide_cell_empty_none] at h3
      intro hall
      exact hall q (by omega) h3
    | some r =>
      simp only [reduceCtorEq, false_iff, not_not]
      intro p hp hcell
      have : force_cells (fun _ => (true, false)) l.length 0 l = none :=
        (force_cells_none_iff (by omega)).mpr
          ⟨p, by omega, by omega, by rw [decide_cell_empty_none]; exact hcell⟩
      rw [this] at hfc
      cases hfc
  · have hlen0 : 0 < l.length := by
      have hw : 0 < c.length := List.length_pos.mpr hcn
      have hsum : c.length ≤ c.sum := by
        have : ∀ cs : List Nat, (∀ x ∈ cs, 0 < x) → cs.length ≤ cs.sum := by
          intro cs
          induction cs with
          | nil => intro _; simp
          | cons x cs ih =>
            intro hx
            have h1 := hx x (List.mem_cons_self x cs)
            have h2 := ih (fun y hy => hx y (List.mem_cons_of_mem x hy))
            simp only [List.length_cons, List.sum_cons]
            omega
        exact this c hpos
      omega
    obtain ⟨nv, hma, heq⟩ := try_solve_nonempty hcn hfit
    rw [heq]
    cases hfc : force_cells nv l.length 0 l with
    | none =>
      simp only [true_iff]
      rintro ⟨s, hs⟩
      obtain ⟨q, h1, h2, h3⟩ := (force_cells_none_iff (by omega)).mp hfc
      have hql : q < l.length := by omega
      rcases hnv : nv q with ⟨e, f⟩
      rw [hnv] at h3
      have hrend : getCell (renderStarts c s l.length) q = Cell.filled ∨
          getCell (renderStarts c s l.length) q = Cell.empty := by
        rw [render_getCell hql]
        cases coversB c s q
        · exact Or.inr rfl
        · exact Or.inl rfl
      rcases e <;> rcases f <;> rcases hcell : getCell l q with _ | _ | _ <;>
          rw [hcell] at h3 <;>
          simp only [decide_cell] at h3 <;>
          try exact Option.noConfusion h3
      -- remaining cases: the decision was `none`
      · -- (false, false), unknown cell
        rcases hrend with hF | hE
        · have := (nv_fill_iff hfit hcn hma hql).mpr ⟨s, hs, hF⟩
          rw [hnv] at this
          cases this
        · have := nv_empty_complete hfit hcn hma hql hs hE
          rw [hnv] at this
          cases this
      · -- (false, false), empty cell
        rcases hrend with hF | hE
        · have := (nv_fill_iff hfit hcn hma hql).mpr ⟨s, hs, hF⟩
          rw [hnv] at this
          cases this
        · have := nv_empty_complete hfit hcn hma hql hs hE
          rw [hnv] at this
          cases this
      · -- (false, false), filled cell
        rcases hrend with hF | hE
        · have := (nv_fill_iff hfit hcn hma hql).mpr ⟨s, hs, hF⟩
          rw [hnv] at this
          cases this
        · have := nv_empty_complete hfit hcn hma hql hs hE
          rw [hnv] at this
          cases this
      · -- (false, true), empty cell: render must be empty
        have hE : getCell (renderStarts c s l.length) q = Cell.empty :=
          hs.2 q hql (by rw [hcell]; exact fun hco => Cell.noConfusion hco)
          |>.trans hcell
        have := nv_empty_complete hfit hcn hma hql hs hE
        rw [hnv] at this
        cases this
      · -- (true, false), filled cell: render must be filled
        have hF : getCell (renderStarts c s l.length) q = Cell.filled :=
          hs.2 q hql (by rw [hcell]; exact fun hco => Cell.noConfusion hco)
          |>.trans hcell
        have := (nv_fill_iff hfit hcn hma hql).mpr ⟨s, hs, hF⟩
        rw [hnv] at this
        cases this
    | some r =>
      simp only [reduceCtorEq, false_iff, not_not]
      -- the solver succeeded: a placement must exist
      by_contra hnosat
      have hno : ∀ s, ¬ Sat c l s := fun s hs => hnosat ⟨s, hs⟩
      have hnv0 : nv 0 = (false, false) := by
        rcases hnv : nv 0 with ⟨e, f⟩
        have he : e ≠ true := by
          intro he
          obtain ⟨i, hi, j, hj, hT, _⟩ := (mark_all_spec hma 0).1.mp
            (by rw [hnv, he])
          obtain ⟨s, hs, _⟩ := (reach_iff_sat hfit hcn hi hj).mp hT
          exact hno s hs
        have hf : f ≠ true := by
          intro hf
          obtain ⟨s, hs, _⟩ := (nv_fill_iff hfit hcn hma hlen0).mp
            (by rw [hnv, hf])
          exact hno s hs
        cases e with
        | true => exact absurd rfl he
        | false =>
          cases f with
          | true => exact absurd rfl hf
          | false => rfl
      have : force_cells nv l.length 0 l = none :=
        (force_cells_none_iff (by omega)).mpr
          ⟨0, le_refl _, by omega, by rw [hnv0]; rfl⟩
      rw [this] at hfc
      cases hfc

theorem C2_contradiction_iff_witness :
    (∀ x ∈ ([2, 2] : List Nat), 0 < x) ∧
    ([2, 2] : List Nat).sum + ([2, 2] : List Nat).length ≤
      ([Cell.filled, Cell.unknown, Cell.filled, Cell.unknown,
        Cell.unknown] : List Cell).length + 1 ∧
    try_solve_line_complete [2, 2]
      [Cell.filled, Cell.unknown, Cell.filled, Cell.unknown, Cell.unknown] =
      SolveResult.contradiction :=
  ⟨by decide, by decide, by
    have h := C2_contradiction_iff (c := [2, 2])
      (l := [Cell.filled, Cell.unknown, Cell.filled, Cell.unknown,
        Cell.unknown]) (by decide) (by decide)
    rw [h]
    rintro ⟨s, hs⟩
    have hlen : s.length = 2 := hs.1.1
    obtain ⟨a, b, rfl⟩ := List.length_eq_two.mp hlen
    have ha : a + 2 ≤ 5 := by
      have := hs.1.2.2 0 (by omega)
      simpa using this
    have hb : b + 2 ≤ 5 := by
      have := hs.1.2.2 1 (by omega)
      simpa using this
    have key : ∀ a2, a2 < 4 → ∀ b2, b2 < 4 →
        ¬ Sat [2, 2] [Cell.filled, Cell.unknown, Cell.filled, Cell.unknown,
          Cell.unknown] [a2, b2] := by decide
    exact key a (by omega) b (by omega) hs⟩

/-- **C3** (counterexample to line-solver maximality): on constraints
`[2,2]` and partial line `??EF????` the solver succeeds and leaves cell 4
Unknown, yet every satisfying placement puts Filled at cell 4 — a forced
cell that single-line reasoning should have set. -/
theorem C3_maximality_counterexample :
    try_solve_line_complete [2, 2]
        [Cell.unknown, Cell.unknown, Cell.empty, Cell.filled,
         Cell.unknown, Cell.unknown, Cell.unknown, Cell.unknown] =
      SolveResult.ok [5]
        [Cell.unknown, Cell.unknown, Cell.empty, Cell.filled,
         Cell.unknown, Cell.empty, Cell.unknown, Cell.unknown] ∧
    getCell [Cell.unknown, Cell.unknown, Cell.empty, Cell.filled,
      Cell.unknown, Cell.empty, Cell.unknown, Cell.unknown] 4 =
      Cell.unknown ∧
    (∀ s, Sat [2, 2]
        [Cell.unknown, Cell.unknown, Cell.empty, Cell.filled,
         Cell.unknown, Cell.unknown, Cell.unknown, Cell.unknown] s →
      getCell (renderStarts [2, 2] s 8) 4 = Cell.filled) ∧
    (∃ s, Sat [2, 2]
        [Cell.unknown, Cell.unknown, Cell.empty, Cell.filled,
         Cell.unknown, Cell.unknown, Cell.unknown, Cell.unknown] s) := by
  refine ⟨by decide, by decide, ?_, ⟨[0, 3], by decide⟩⟩
  intro s hs
  have hlen : s.length = 2 := hs.1.1
  obtain ⟨a, b, rfl⟩ := List.length_eq_two.mp hlen
  have ha : a + 2 ≤ 8 := by
    have := hs.1.2.2 0 (by omega)
    simpa using this
  have hb : b + 2 ≤ 8 := by
    have := hs.1.2.2 1 (by omega)
    simpa using this
  have key : ∀ a2, a2 < 7 → ∀ b2, b2 < 7 →
      Sat [2, 2]
        [Cell.unknown, Cell.unknown, Cell.empty, Cell.filled,
         Cell.unknown, Cell.unknown, Cell.unknown, Cell.unknown] [a2, b2] →
      getCell (renderStarts [2, 2] [a2, b2] 8) 4 = Cell.filled := by decide
  exact key a (by omega) b (by omega) hs

/-- **C3** (amended maximality): when `try_solve_line_complete` succeeds,
(i) every genuinely unforced cell — one rendered Filled by some satisfying
placement and Empty by another — is left Unknown in the output; and
(ii) a cell left Unknown in the output was Unknown on entry and is rendered
Filled by at least one satisfying placement. The original claim's converse
of (i) is false: a cell left Unknown may still be forced, because the
can-be-empty marking over-approximates. -/
theorem C3_maximality_amended {c : List Nat} {l : List Cell}
    {ch : List Nat} {l' : List Cell}
    (hok : try_solve_line_complete c l = SolveResult.ok ch l')
    {p : Nat} (hpl : p < l.length) :
    (((∃ s, Sat c l s ∧
        getCell (renderStarts c s l.length) p = Cell.filled) ∧
      (∃ s, Sat c l s ∧
        getCell (renderStarts c s l.length) p = Cell.empty)) →
      getCell l' p = Cell.unknown) ∧
    (getCell l' p = Cell.unknown →
      getCell l p = Cell.unknown ∧
      ∃ s, Sat c l s ∧
        getCell (renderStarts c s l.length) p = Cell.filled) := by
  by_cases hcn : c = []
  · subst hcn
    constructor
    · rintro ⟨⟨s, hs, hF⟩, -⟩
      rw [render_nil (by omega)] at hF
      cases hF
    · intro hout
      exfalso
      rw [try_solve_nil] at hok
      cases hfc : force_cells (fun _ => (true, false)) l.length 0 l with
      | none => rw [hfc] at hok; cases hok
      | some r =>
        rw [hfc] at hok
        injection hok with h1 h2
        subst h1; subst h2
        obtain ⟨ha, hb, hlen, hd⟩ := force_cells_sound (by omega) hfc
        have hdc := ha p (by omega) (by omega)
        rcases hcell : getCell l p with _ | _ | _ <;> rw [hcell] at hdc <;>
            simp only [decide_cell] at hdc <;>
            try exact Option.noConfusion hdc
        · injection hdc with hdc
          rw [← hdc] at hout
          cases hout
        · injection hdc with hdc
          rw [← hdc] at hout
          cases hout
  · have hfit := ok_fit hcn hok
    obtain ⟨nv, hma, heq⟩ := try_solve_nonempty hcn hfit
    rw [heq] at hok
    cases hfc : force_cells nv l.length 0 l with
    | none => rw [hfc] at hok; cases hok
    | some r =>
      rw [hfc] at hok
      injection hok with h1 h2
      subst h1; subst h2
      obtain ⟨ha, hb, hlen, hd⟩ := force_cells_sound (by omega) hfc
      have hdc := ha p (by omega) (by omega)
      constructor
      · rintro ⟨⟨s1, hs1, hF⟩, ⟨s2, hs2, hE⟩⟩
        have hcellU : getCell l p = Cell.unknown := by
          by_contra hne
          have e1 := (hs1.2 p hpl hne).symm.trans hF
          have e2 := (hs2.2 p hpl hne).symm.trans hE
          rw [e1] at e2
          cases e2
        have hf : (nv p).2 = true :=
          (nv_fill_iff hfit hcn hma hpl).mpr ⟨s1, hs1, hF⟩
        have he : (nv p).1 = true :=
          nv_empty_complete hfit hcn hma hpl hs2 hE
        rcases hnv : nv p with ⟨e, f⟩
        rw [hnv] at he hf
        subst he; subst hf
        rw [hnv, hcellU] at hdc
        simp only [decide_cell] at hdc
        injection hdc with hdc
        rw [← hdc]
      · intro hout
        rcases hnv : nv p with ⟨e, f⟩
        rw [hnv] at hdc
        rcases e <;> rcases f <;>
            rcases hcell : getCell l p with _ | _ | _ <;>
            rw [hcell] at hdc <;>
            simp only [decide_cell] at hdc <;>
            try exact Option.noConfusion hdc
        · injection hdc with hdc; rw [hout] at hdc; exact Cell.noConfusion hdc
        · injection hdc with hdc; rw [hout] at hdc; exact Cell.noConfusion hdc
        · injection hdc with hdc; rw [hout] at hdc; exact Cell.noConfusion hdc
        · injection hdc with hdc; rw [hout] at hdc; exact Cell.noConfusion hdc
        · exact ⟨rfl, (nv_fill_iff hfit hcn hma hpl).mp (by rw [hnv])⟩
        · injection hdc with hdc; rw [hout] at hdc; exact Cell.noConfusion hdc
        · injection hdc with hdc; rw [hout] at hdc; exact Cell.noConfusion hdc

theorem C3_maximality_amended_witness :
    try_solve_line_complete [2] [Cell.unknown, Cell.unknown, Cell.unknown] =
      SolveResult.ok [1] [Cell.unknown, Cell.filled, Cell.unknown] ∧
    (0 : Nat) <
      ([Cell.unknown, Cell.unknown, Cell.unknown] : List Cell).length ∧
    ((((∃ s, Sat [2] [Cell.unknown, Cell.unknown, Cell.unknown] s ∧
        getCell (renderStarts [2] s 3) 0 = Cell.filled) ∧
      (∃ s, Sat [2] [Cell.unknown, Cell.unknown, Cell.unknown] s ∧
        getCell (renderStarts [2] s 3) 0 = Cell.empty)) →
      getCell [Cell.unknown, Cell.filled, Cell.unknown] 0 = Cell.unknown) ∧
    (getCell [Cell.unknown, Cell.filled, Cell.unknown] 0 = Cell.unknown →
      getCell [Cell.unknown, Cell.unknown, Cell.unknown] 0 = Cell.unknown ∧
      ∃ s, Sat [2] [Cell.unknown, Cell.unknown, Cell.unknown] s ∧
        getCell (renderStarts [2] s 3) 0 = Cell.filled)) :=
  ⟨by decide, by decide,
    @C3_maximality_amended [2]
      [Cell.unknown, Cell.unknown, Cell.unknown] [1]
      [Cell.unknown, Cell.filled, Cell.unknown]
      (by decide) 0 (by decide)⟩

theorem decide_cell_out {e f : Bool} {v v' : Cell}
    (h : decide_cell (e, f) v = some v') :
    (e = true ∧ f = false ∧ v' = Cell.empty ∧ v ≠ Cell.filled) ∨
    (e = false ∧ f = true ∧ v' = Cell.filled ∧ v ≠ Cell.empty) ∨
    (e = true ∧ f = true ∧ v' = v) := by
  rcases e <;> rcases f <;> cases v <;> simp only [decide_cell] at h <;>
    first
      | exact Option.noConfusion h
      | (injection h with h; subst h; decide)

theorem bool_eq_of_iff {a b : Bool} (h : a = true ↔ b = true) : a = b := by
  cases a <;> cases b <;> simp_all

theorem force_cells_id {nv : Nat → Bool × Bool} :
    ∀ {n i : Nat} {l : List Cell},
    (∀ q, i ≤ q → q < i + n →
      decide_cell (nv q) (getCell l q) = some (getCell l q)) →
    force_cells nv n i l = some ([], l) := by
  intro n
  induction n with
  | zero => intro i l _; rfl
  | succ n ih =>
    intro i l hq
    have h0 := hq i (le_refl i) (by omega)
    have hrest : ∀ q, i + 1 ≤ q → q < i + 1 + n →
        decide_cell (nv q) (getCell l q) = some (getCell l q) :=
      fun q h1 h2 => hq q (by omega) (by omega)
    simp only [force_cells]
    rcases hnv : nv i with ⟨e, f⟩
    rw [hnv] at h0
    rcases e <;> rcases f
    · simp only [decide_cell] at h0
      exact Option.noConfusion h0
    · cases hcell : getCell l i with
      | unknown =>
        rw [hcell] at h0
        simp only [decide_cell] at h0
        injection h0 with h0
        exact Cell.noConfusion h0
      | empty =>
        rw [hcell] at h0
        simp only [decide_cell] at h0
        exact Option.noConfusion h0
      | filled => exact ih hrest
    · cases hcell : getCell l i with
      | unknown =>
        rw [hcell] at h0
        simp only [decide_cell] at h0
        injection h0 with h0
        exact Cell.noConfusion h0
      | filled =>
        rw [hcell] at h0
        simp only [decide_cell] at h0
        exact Option.noConfusion h0
      | empty => exact ih hrest
    · exact ih hrest

theorem kmax_congr {h : Nat} {d d' : Table} {i j : Nat}
    (heq : ∀ k, k < h →
      (d (i + 1) k = some true ↔ d' (i + 1) k = some true)) :
    kmax h d i j = kmax h d' i j := by
  unfold kmax
  congr 1
  apply List.filter_congr
  intro k hk
  obtain ⟨h1, h2⟩ := List.mem_range'_1.mp hk
  simp only [decide_eq_decide]
  exact heq k (by omega)

theorem emptyMarkCond_congr {c : List Nat} {L w h : Nat} {d d' : Table}
    {i j p : Nat}
    (heq : ∀ i2 j2, i2 < w → j2 < h →
      (d i2 j2 = some true ↔ d' i2 j2 = some true)) (hi : i < w) :
    emptyMarkCond c L w h d i j p ↔ emptyMarkCond c L w h d' i j p := by
  unfold emptyMarkCond
  by_cases hiw : i < w - 1
  · rw [kmax_congr (fun k hk => heq (i + 1) k (by omega) hk)]
  · have h5 : ∀ (dd : Table),
        (i < w - 1 ∧ ∃ km, kmax h dd i j = some km ∧ j + 1 < km ∧
          constraint_left c i + c.getD i 0 + j + 1 ≤ p ∧
          p < constraint_left c i + c.getD i 0 + j + 1 + (km - j - 1)) ↔
        False := by
      intro dd
      simp only [iff_false]
      rintro ⟨h1, -⟩
      exact hiw h1
    rw [h5 d, h5 d']

theorem mark_all_congr {c : List Nat} {L w h : Nat} {d d' : Table}
    {nv nv' : Nat → Bool × Bool}
    (hma : mark_all c L w h d = some nv)
    (hma' : mark_all c L w h d' = some nv')
    (heq : ∀ i j, i < w → j < h →
      (d i j = some true ↔ d' i j = some true)) (p : Nat) :
    nv p = nv' p := by
  have h1 := mark_all_spec hma p
  have h2 := mark_all_spec hma' p
  refine Prod.ext (bool_eq_of_iff ?_) (bool_eq_of_iff ?_)
  · rw [h1.1, h2.1]
    constructor
    · rintro ⟨i, hi, j, hj, ht, hcond⟩
      exact ⟨i, hi, j, hj, (heq i j hi hj).mp ht,
        (emptyMarkCond_congr heq hi).mp hcond⟩
    · rintro ⟨i, hi, j, hj, ht, hcond⟩
      exact ⟨i, hi, j, hj, (heq i j hi hj).mpr ht,
        (emptyMarkCond_congr heq hi).mpr hcond⟩
  · rw [h1.2, h2.2]
    constructor
    · rintro ⟨i, hi, j, hj, ht, hcond⟩
      exact ⟨i, hi, j, hj, (heq i j hi hj).mp ht, hcond⟩
    · rintro ⟨i, hi, j, hj, ht, hcond⟩
      exact ⟨i, hi, j, hj, (heq i j hi hj).mpr ht, hcond⟩

/-- A successful run of the solver does not change the set of satisfying
placements: every deduction it makes is forced. -/
theorem sat_preserved {c : List Nat} {l : List Cell} {ch : List Nat}
    {l' : List Cell} (hc : c ≠ [])
    (hok : try_solve_line_complete c l = SolveResult.ok ch l')
    (s : List Nat) : Sat c l s ↔ Sat c l' s := by
  have hfit := ok_fit hc hok
  obtain ⟨nv, hma, heq⟩ := try_solve_nonempty hc hfit
  rw [heq] at hok
  cases hfc : force_cells nv l.length 0 l with
  | none => rw [hfc] at hok; cases hok
  | some r =>
    rw [hfc] at hok
    injection hok with h1 h2
    subst h1; subst h2
    obtain ⟨ha, hb, hlen, hd⟩ := force_cells_sound (by omega) hfc
    constructor
    · intro hs
      refine ⟨by rw [hlen]; exact hs.1, ?_⟩
      intro p hp hne
      rw [hlen] at hp ⊢
      have hdc := ha p (by omega) (by omega)
      rcases hnv : nv p with ⟨e, f⟩
      rw [hnv] at hdc
      rcases decide_cell_out hdc with ⟨he, hf, hout, -⟩ |
        ⟨he, hf, hout, -⟩ | ⟨he, hf, hout⟩
      · -- forced Empty: no placement fills p
        rw [hout, render_getCell hp]
        cases hcov : coversB c s p with
        | false => rfl
        | true =>
          exfalso
          have hF : getCell (renderStarts c s l.length) p = Cell.filled := by
            rw [render_getCell hp, hcov]
            rfl
          have := (nv_fill_iff hfit hc hma hp).mpr ⟨s, hs, hF⟩
          rw [hnv, hf] at this
          cases this
      · -- forced Filled: no placement leaves p empty
        rw [hout, render_getCell hp]
        cases hcov : coversB c s p with
        | true => rfl
        | false =>
          exfalso
          have hE : getCell (renderStarts c s l.length) p = Cell.empty := by
            rw [render_getCell hp, hcov]
            rfl
          have := nv_empty_complete hfit hc hma hp hs hE
          rw [hnv, he] at this
          cases this
      · -- unchanged cell
        rw [hout] at hne ⊢
        exact hs.2 p hp hne
    · intro hs
      refine ⟨by rw [← hlen]; exact hs.1, ?_⟩
      intro p hp hne
      have hdc := ha p (by omega) (by omega)
      rcases decide_cell_cases hdc with hsame | ⟨hU, -⟩
      · have := hs.2 p (by omega) (by rw [hsame]; exact hne)
        rw [hlen, hsame] at this
        exact this
      · exact absurd hU hne

/-- **C7** (idempotence): if `try_solve_line_complete` succeeds, running it
again on the resulting line succeeds and reports no changes. -/
theorem C7_idempotence {c : List Nat} {l : List Cell} {ch : List Nat}
    {l' : List Cell}
    (hok : try_solve_line_complete c l = SolveResult.ok ch l') :
    try_solve_line_complete c l' = SolveResult.ok [] l' := by
  by_cases hcn : c = []
  · subst hcn
    rw [try_solve_nil] at hok
    rw [try_solve_nil]
    cases hfc : force_cells (fun _ => (true, false)) l.length 0 l with
    | none => rw [hfc] at hok; cases hok
    | some r =>
      rw [hfc] at hok
      injection hok with h1 h2
      subst h1; subst h2
      obtain ⟨ha, hb, hlen, hd⟩ := force_cells_sound (by omega) hfc
      have hall : ∀ q, q < r.2.length → getCell r.2 q = Cell.empty := by
        intro q hq
        have hdc := ha q (by omega) (by omega)
        rcases decide_cell_out hdc with ⟨-, -, hout, -⟩ |
          ⟨he, -, -, -⟩ | ⟨-, hf, -⟩
        · exact hout
        · exact Bool.noConfusion he
        · exact Bool.noConfusion hf
      have hforce : force_cells (fun _ => (true, false)) r.2.length 0 r.2 =
          some ([], r.2) := by
        apply force_cells_id
        intro q h1 h2
        rw [hall q (by omega)]
        rfl
      rw [hforce]
  · have hfit := ok_fit hcn hok
    have hok0 := hok
    obtain ⟨nv, hma, heq⟩ := try_solve_nonempty hcn hfit
    rw [heq] at hok
    cases hfc : force_cells nv l.length 0 l with
    | none => rw [hfc] at hok; cases hok
    | some r =>
      rw [hfc] at hok
      injection hok with h1 h2
      subst h1; subst h2
      obtain ⟨ha, hb, hlen, hd⟩ := force_cells_sound (by omega) hfc
      have hsat := sat_preserved hcn hok0
      have hfit' : c.sum + c.length ≤ r.2.length + 1 := by
        rw [hlen]; exact hfit
      obtain ⟨nv', hma', heq'⟩ := try_solve_nonempty hcn hfit'
      rw [heq']
      rw [hlen] at hma'
      have htab : ∀ i j, i < c.length →
          j < l.length + 1 - c.sum - c.length + 1 →
          (build_determined c l c.length
              (l.length + 1 - c.sum - c.length + 1) i j = some true ↔
           build_determined c r.2 c.length
              (l.length + 1 - c.sum - c.length + 1) i j = some true) := by
        intro i j hi hj
        rw [reach_iff_sat hfit hcn hi hj]
        rw [show l.length + 1 - c.sum - c.length + 1 =
          r.2.length + 1 - c.sum - c.length + 1 from by rw [hlen]]
        rw [reach_iff_sat hfit' hcn hi (by rw [hlen]; exact hj)]
        constructor
        · rintro ⟨s, hs, hoff⟩
          exact ⟨s, (hsat s).mp hs, hoff⟩
        · rintro ⟨s, hs, hoff⟩
          exact ⟨s, (hsat s).mpr hs, hoff⟩
      have hnveq : ∀ p, nv p = nv' p := mark_all_congr hma hma' htab
      have hforce : force_cells nv' r.2.length 0 r.2 = some ([], r.2) := by
        apply force_cells_id
        intro q h1 h2
        rw [← hnveq q]
        have hdc := ha q (by omega) (by omega)
        rcases hnv : nv q with ⟨e, f⟩
        rw [hnv] at hdc
        rcases decide_cell_out hdc with ⟨he, hf, hout, -⟩ |
          ⟨he, hf, hout, -⟩ | ⟨he, hf, hout⟩
        · subst he; subst hf
          rw [hout]
          rfl
        · subst he; subst hf
          rw [hout]
          rfl
        · subst he; subst hf
          simp only [decide_cell]
      rw [hforce]

theorem C7_idempotence_witness :
    try_solve_line_complete [2] [Cell.unknown, Cell.unknown, Cell.unknown] =
      SolveResult.ok [1] [Cell.unknown, Cell.filled, Cell.unknown] ∧
    try_solve_line_complete [2] [Cell.unknown, Cell.filled, Cell.unknown] =
      SolveResult.ok [] [Cell.unknown, Cell.filled, Cell.unknown] :=
  ⟨by decide, @C7_idempotence [2]
    [Cell.unknown, Cell.unknown, Cell.unknown] [1]
    [Cell.unknown, Cell.filled, Cell.unknown] (by decide)⟩

/-! ### Puzzle-file parsing (`read_csv_puzzle`, board.rs) -/

/-- `Board` from `board.rs`: dimensions, cells in row-major order, and the
row/column constraint lists (constraint `length` values). -/
structure Board where
  width : Nat
  height : Nat
  cells : List Cell
  row_constraints : List (List Nat)
  col_constraints : List (List Nat)
deriving DecidableEq, Repr

/-- `line.split(",")`: split a character list at every comma, keeping empty
fields. -/
def split_fields : List Char → List Char → List (List Char)
  | [], cur => [cur.reverse]
  | ch :: rest, cur =>
    if ch = ',' then cur.reverse :: split_fields rest []
    else split_fields rest (ch :: cur)

def parse_digit (ch : Char) : Option Nat :=
  if '0' ≤ ch ∧ ch ≤ '9' then some (ch.toNat - 48) else none

def parse_digits : List Char → Nat → Option Nat
  | [], acc => some acc
  | ch :: rest, acc =>
    match parse_digit ch with
    | none => none
    | some d => parse_digits rest (acc * 10 + d)

/-- `field.parse::<Unit>()` for `Unit = u16`: an optional leading `+`, then
one or more digits, value at most `u16::MAX`; `none` models the parse
error (which `unwrap` turns into a panic). -/
def parse_unit (cs : List Char) : Option Nat :=
  let cs2 := match cs with
    | Char.ofNat 43 :: rest => rest
    | _ => cs
  match cs2 with
  | [] => none
  | _ =>
    match parse_digits cs2 0 with
    | none => none
    | some n => if n < 65536 then some n else none

/-- One non-sentinel line of the puzzle file: empty line gives an empty
constraint list, otherwise comma-separated `u16` values. -/
def parse_constraint_line (line : String) : Option (List Nat) :=
  if line = "" then some []
  else
    match (split_fields line.data []).foldr
        (fun f acc => match parse_unit f, acc with
          | some v, some vs => some (v :: vs)
          | _, _ => none) (some []) with
    | none => none
    | some vs => some vs

/-- Parse a block of non-sentinel lines in order. -/
def parse_lines : List String → Option (List (List Nat))
  | [] => some []
  | line :: rest =>
    match parse_constraint_line line with
    | none => none
    | some cl =>
      match parse_lines rest with
      | none => none
      | some cls => some (cl :: cls)

/-- The line loop of `read_csv_puzzle`: `is_cols` starts `true`, the
`=COLUMNS` sentinel sets it to `false`, `=ROWS` breaks; every other line
is parsed and pushed to `cols` while `is_cols` holds and to `rows`
afterwards. -/
def read_csv_loop : List String → List (List Nat) → List (List Nat) →
    Bool → Option (List (List Nat) × List (List Nat))
  | [], cols, rows, _ => some (cols, rows)
  | line :: rest, cols, rows, is_cols =>
    if line = "=COLUMNS" then read_csv_loop rest cols rows false
    else if line = "=ROWS" then some (cols, rows)
    else
      match parse_constraint_line line with
      | none => none
      | some clist =>
        if is_cols then read_csv_loop rest (cols ++ [clist]) rows is_cols
        else read_csv_loop rest cols (rows ++ [clist]) is_cols

/-- `Board::read_csv_puzzle` over the file's list of lines; `none` models
the `unwrap` panic on an unparsable field. -/
def read_csv_puzzle (lines : List String) : Option Board :=
  match read_csv_loop lines [] [] true with
  | none => none
  | some r =>
    some { width := r.1.length, height := r.2.length,
           cells := List.replicate (r.1.length * r.2.length) Cell.unknown,
           col_constraints := r.1, row_constraints := r.2 }

theorem read_csv_loop_cols {lines rest : List String}
    {cls cols rows : List (List Nat)}
    (hp : parse_lines lines = some cls)
    (hns : ∀ x ∈ lines, x ≠ "=COLUMNS" ∧ x ≠ "=ROWS") :
    read_csv_loop (lines ++ rest) cols rows true =
      read_csv_loop rest (cols ++ cls) rows true := by
  induction lines generalizing cols cls with
  | nil =>
    simp only [parse_lines, Option.some.injEq] at hp
    subst hp
    simp
  | cons x xs ih =>
    simp only [parse_lines] at hp
    cases hpc : parse_constraint_line x with
    | none => rw [hpc] at hp; cases hp
    | some cl =>
      rw [hpc] at hp
      cases hpl : parse_lines xs with
      | none => rw [hpl] at hp; cases hp
      | some cls2 =>
        rw [hpl] at hp
        simp only [Option.some.injEq] at hp
        subst hp
        rw [List.cons_append]
        simp only [read_csv_loop]
        rw [if_neg (hns x (List.mem_cons_self x xs)).1,
          if_neg (hns x (List.mem_cons_self x xs)).2, hpc]
        simp only [if_pos rfl]
        rw [ih hpl (fun y hy => hns y (List.mem_cons_of_mem x hy))]
        rw [List.append_cons, List.append_assoc]
        simp

theorem read_csv_loop_rows {lines rest : List String}
    {cls cols rows : List (List Nat)}
    (hp : parse_lines lines = some cls)
    (hns : ∀ x ∈ lines, x ≠ "=COLUMNS" ∧ x ≠ "=ROWS") :
    read_csv_loop (lines ++ rest) cols rows false =
      read_csv_loop rest cols (rows ++ cls) false := by
  induction lines generalizing rows cls with
  | nil =>
    simp only [parse_lines, Option.some.injEq] at hp
    subst hp
    simp
  | cons x xs ih =>
    simp only [parse_lines] at hp
    cases hpc : parse_constraint_line x with
    | none => rw [hpc] at hp; cases hp
    | some cl =>
      rw [hpc] at hp
      cases hpl : parse_lines xs with
      | none => rw [hpl] at hp; cases hp
      | some cls2 =>
        rw [hpl] at hp
        simp only [Option.some.injEq] at hp
        subst hp
        rw [List.cons_append]
        simp only [read_csv_loop]
        rw [if_neg (hns x (List.mem_cons_self x xs)).1,
          if_neg (hns x (List.mem_cons_self x xs)).2, hpc]
        simp only [Bool.false_eq_true, if_false]
        rw [ih hpl (fun y hy => hns y (List.mem_cons_of_mem x hy))]
        rw [List.append_cons, List.append_assoc]
        simp

/-- **C8** (counterexample to the claimed sentinel semantics): on the
well-formed puzzle text `=COLUMNS`, `1`, `=ROWS`, `2` the claim predicts a
1×1 board with column list `[1]` and row list `[2]`; the code instead
treats lines before `=COLUMNS` as columns and lines before `=ROWS` as
rows, producing a 0×1 board whose single row list is `[1]` and ignoring
everything after `=ROWS`. -/
theorem C8_read_csv_counterexample :
    read_csv_puzzle ["=COLUMNS", "1", "=ROWS", "2"] =
      some { width := 0, height := 1, cells := [],
             row_constraints := [[1]], col_constraints := [] } ∧
    read_csv_puzzle ["=COLUMNS", "1", "=ROWS", "2"] ≠
      some { width := 1, height := 1, cells := [Cell.unknown],
             row_constraints := [[2]], col_constraints := [[1]] } := by
  constructor
  · decide
  · decide

/-- **C8** (amended): `read_csv_puzzle` takes the lines *before* the
`=COLUMNS` sentinel as the column constraint lists and the lines between
`=COLUMNS` and `=ROWS` as the row constraint lists; lines after `=ROWS`
are ignored; width = number of column lines, height = number of row
lines, all cells Unknown. -/
theorem C8_read_csv_amended {pre mid post : List String}
    {cs rs : List (List Nat)}
    (hpre : parse_lines pre = some cs)
    (hmid : parse_lines mid = some rs)
    (hpre_s : ∀ x ∈ pre, x ≠ "=COLUMNS" ∧ x ≠ "=ROWS")
    (hmid_s : ∀ x ∈ mid, x ≠ "=COLUMNS" ∧ x ≠ "=ROWS") :
    read_csv_puzzle (pre ++ "=COLUMNS" :: (mid ++ "=ROWS" :: post)) =
      some { width := cs.length, height := rs.length,
             cells := List.replicate (cs.length * rs.length) Cell.unknown,
             col_constraints := cs, row_constraints := rs } := by
  have h1 : ∀ (rest : List String) (cols rows : List (List Nat)),
      read_csv_loop ("=COLUMNS" :: rest) cols rows true =
        read_csv_loop rest cols rows false := fun _ _ _ => rfl
  have h2 : ∀ (rest : List String) (cols rows : List (List Nat)),
      read_csv_loop ("=ROWS" :: rest) cols rows false = some (cols, rows) :=
    fun _ _ _ => rfl
  unfold read_csv_puzzle
  rw [read_csv_loop_cols hpre hpre_s, h1, read_csv_loop_rows hmid hmid_s, h2]
  simp

theorem C8_read_csv_amended_witness :
    parse_lines ["1"] = some [[1]] ∧
    parse_lines ["2"] = some [[2]] ∧
    (∀ x ∈ (["1"] : List String), x ≠ "=COLUMNS" ∧ x ≠ "=ROWS") ∧
    (∀ x ∈ (["2"] : List String), x ≠ "=COLUMNS" ∧ x ≠ "=ROWS") ∧
    read_csv_puzzle (["1"] ++ "=COLUMNS" :: (["2"] ++ "=ROWS" :: [])) =
      some { width := 1, height := 1, cells := [Cell.unknown],
             col_constraints := [[1]], row_constraints := [[2]] } :=
  ⟨by decide, by decide, by decide, by decide,
    @C8_read_csv_amended ["1"] ["2"] [] [[1]] [[2]]
      (by decide) (by decide) (by decide) (by decide)⟩

/-! ### Board equality and hashing (board.rs `impl PartialEq` / `impl Hash`) -/

/-- `impl PartialEq for Board`: compare width, height and zipped cells;
the constraint lists are not consulted. -/
def board_eq (a b : Board) : Bool :=
  if a.width ≠ b.width ∨ a.height ≠ b.height then false
  else (a.cells.zip b.cells).all (fun p => p.1 == p.2)

def cell_code : Cell → Nat
  | Cell.empty => 0
  | Cell.filled => 1
  | Cell.unknown => 2

/-- One 32-cell chunk of `impl Hash for Board`: `v <<= 2; v += code` on a
wrapping `u64`. -/
def chunk_val (chunk : List Cell) : Nat :=
  chunk.foldl (fun v cell => (v * 4 % 2 ^ 64 + cell_code cell) % 2 ^ 64) 0

def board_hash_aux : Nat → List Cell → List Nat
  | _, [] => []
  | 0, _ :: _ => []
  | fuel + 1, cell :: rest =>
    chunk_val ((cell :: rest).take 32) ::
      board_hash_aux fuel ((cell :: rest).drop 32)

/-- `impl Hash for Board`: the sequence of `u64` words written to the
hasher, one per 32-cell chunk; it reads only `cells`. -/
def board_hash (b : Board) : List Nat :=
  board_hash_aux b.cells.length b.cells

theorem zip_all_eq {l1 l2 : List Cell} (hlen : l1.length = l2.length) :
    ((l1.zip l2).all (fun p => p.1 == p.2) = true) ↔ l1 = l2 := by
  induction l1 generalizing l2 with
  | nil =>
    cases l2 with
    | nil => simp
    | cons b bs => simp at hlen
  | cons a as ih =>
    cases l2 with
    | nil => simp at hlen
    | cons b bs =>
      simp only [List.zip_cons_cons, List.all_cons, Bool.and_eq_true,
        beq_iff_eq, List.cons.injEq]
      rw [ih (by simpa using hlen)]

/-- **C10** (board equality and hash ignore constraints): under the board
invariant `|cells| = width * height`, `==` holds exactly when width,
height and the cell arrays agree; in particular two boards that differ
only in their row/column constraint lists compare equal and hash to the
same word sequence. -/
theorem C10_board_eq_ignores_constraints {a b : Board}
    (hla : a.cells.length = a.width * a.height)
    (hlb : b.cells.length = b.width * b.height) :
    (board_eq a b = true ↔
      a.width = b.width ∧ a.height = b.height ∧ a.cells = b.cells) ∧
    (a.width = b.width → a.height = b.height → a.cells = b.cells →
      board_eq a b = true ∧ board_hash a = board_hash b) := by
  have hiff : board_eq a b = true ↔
      a.width = b.width ∧ a.height = b.height ∧ a.cells = b.cells := by
    unfold board_eq
    by_cases hw : a.width = b.width
    · by_cases hh : a.height = b.height
      · rw [if_neg (by simp [hw, hh])]
        rw [zip_all_eq (by rw [hla, hlb, hw, hh])]
        constructor
        · exact fun hc => ⟨hw, hh, hc⟩
        · exact fun h => h.2.2
      · rw [if_pos (Or.inr hh)]
        simp [hh]
    · rw [if_pos (Or.inl hw)]
      simp [hw]
  refine ⟨hiff, fun hw hh hc => ⟨hiff.mpr ⟨hw, hh, hc⟩, ?_⟩⟩
  unfold board_hash
  rw [hc]

theorem C10_board_eq_ignores_constraints_witness :
    (board_eq (Board.mk 1 1 [Cell.filled] [[1]] [[1]])
        (Board.mk 1 1 [Cell.filled] [[2]] [[3]]) = true ↔
      (1 : Nat) = 1 ∧ (1 : Nat) = 1 ∧
        ([Cell.filled] : List Cell) = [Cell.filled]) ∧
    ((1 : Nat) = 1 → (1 : Nat) = 1 →
      ([Cell.filled] : List Cell) = [Cell.filled] →
      board_eq (Board.mk 1 1 [Cell.filled] [[1]] [[1]])
          (Board.mk 1 1 [Cell.filled] [[2]] [[3]]) = true ∧
        board_hash (Board.mk 1 1 [Cell.filled] [[1]] [[1]]) =
          board_hash (Board.mk 1 1 [Cell.filled] [[2]] [[3]])) :=
  @C10_board_eq_ignores_constraints
    (Board.mk 1 1 [Cell.filled] [[1]] [[1]])
    (Board.mk 1 1 [Cell.filled] [[2]] [[3]]) (by decide) (by decide)

/-! ### PrioritySet (util.rs) -/

/-- `PrioritySet<T>.insert`: `entry(value).or_insert(0); *entry += 1` on a
`BTreeMap<T, u32>`, modelled as a key-sorted association list with `u32`
wrapping arithmetic. -/
def ps_insert {T : Type} [LinearOrder T] : List (T × Nat) → T → List (T × Nat)
  | [], v => [(v, 1)]
  | (k, p) :: rest, v =>
    if v = k then (k, (p + 1) % 2 ^ 32) :: rest
    else if v < k then (v, 1) :: (k, p) :: rest
    else (k, p) :: ps_insert rest v

/-- `BTreeMap` lookup on the association-list model. -/
def ps_lookup {T : Type} [LinearOrder T] : List (T × Nat) → T → Option Nat
  | [], _ => none
  | (k, p) :: rest, v => if v = k then some p else ps_lookup rest v

/-- One step of `max_by(av.cmp(bv).then(ak.cmp(bk)))`: keep the earlier
element only when it compares strictly greater, so later elements win
ties. -/
def ps_max_step {T : Type} [LinearOrder T] (acc b : T × Nat) : T × Nat :=
  if b.2 < acc.2 ∨ (acc.2 = b.2 ∧ b.1 < acc.1) then acc else b

/-- `self.elements.iter().max_by(...)` over ascending key order. -/
def ps_max {T : Type} [LinearOrder T] : List (T × Nat) → Option (T × Nat)
  | [] => none
  | x :: rest => some (rest.foldl ps_max_step x)

/-- `BTreeMap::remove` on the model. -/
def ps_remove {T : Type} [LinearOrder T] : List (T × Nat) → T → List (T × Nat)
  | [], _ => []
  | (k, p) :: rest, v => if v = k then rest else (k, p) :: ps_remove rest v

/-- `PrioritySet<T>.pop`: find the `max_by` entry, remove it, return its
key. -/
def ps_pop {T : Type} [LinearOrder T] (s : List (T × Nat)) :
    Option (T × List (T × Nat)) :=
  match ps_max s with
  | none => none
  | some m => some (m.1, ps_remove s m.1)

/-- The `BTreeMap` representation invariant: strictly increasing keys. -/
def ps_sorted {T : Type} [LinearOrder T] (s : List (T × Nat)) : Prop :=
  List.Pairwise (fun a b => a.1 < b.1) s

instance {T : Type} [LinearOrder T] (s : List (T × Nat)) :
    Decidable (ps_sorted s) := by
  unfold ps_sorted
  infer_instance

/-- Strict lexicographic order on (priority, key), the order `pop`
maximises. -/
def ps_lt {T : Type} [LinearOrder T] (a b : T × Nat) : Prop :=
  a.2 < b.2 ∨ (a.2 = b.2 ∧ a.1 < b.1)

theorem ps_lt_trans {T : Type} [LinearOrder T] {a b c : T × Nat}
    (h1 : ps_lt a b) (h2 : ps_lt b c) : ps_lt a c := by
  rcases h1 with h1 | ⟨h1a, h1b⟩ <;> rcases h2 with h2 | ⟨h2a, h2b⟩
  · exact Or.inl (lt_trans h1 h2)
  · exact Or.inl (by rw [← h2a]; exact h1)
  · exact Or.inl (by rw [h1a]; exact h2)
  · exact Or.inr ⟨h1a.trans h2a, lt_trans h1b h2b⟩

theorem ps_lookup_none_of_forall_lt {T : Type} [LinearOrder T] :
    ∀ {s : List (T × Nat)} {v : T}, (∀ e ∈ s, v < e.1) →
    ps_lookup s v = none := by
  intro s
  induction s with
  | nil => intro v _; rfl
  | cons x rest ih =>
    intro v h
    obtain ⟨k, q⟩ := x
    simp only [ps_lookup]
    rw [if_neg (ne_of_lt (h (k, q) (List.mem_cons_self _ _)))]
    exact ih (fun e he => h e (List.mem_cons_of_mem _ he))

theorem ps_lookup_mem {T : Type} [LinearOrder T] :
    ∀ {s : List (T × Nat)} {v : T} {p : Nat},
    ps_lookup s v = some p → (v, p) ∈ s := by
  intro s
  induction s with
  | nil =>
    intro v p hl
    exact Option.noConfusion hl
  | cons x rest ih =>
    intro v p hl
    obtain ⟨k, q⟩ := x
    simp only [ps_lookup] at hl
    by_cases hv : v = k
    · rw [if_pos hv] at hl
      injection hl with hl
      subst hv
      subst hl
      exact List.mem_cons_self _ _
    · rw [if_neg hv] at hl
      exact List.mem_cons_of_mem _ (ih hl)

theorem ps_mem_lookup {T : Type} [LinearOrder T] :
    ∀ {s : List (T × Nat)} {v : T} {p : Nat}, ps_sorted s →
    (v, p) ∈ s → ps_lookup s v = some p := by
  intro s
  induction s with
  | nil => intro v p _ hm; exact absurd hm (List.not_mem_nil _)
  | cons x rest ih =>
    intro v p hs hm
    obtain ⟨k, q⟩ := x
    obtain ⟨hk, hrest⟩ := List.pairwise_cons.mp hs
    rcases List.mem_cons.mp hm with heq | hm2
    · injection heq with h1 h2
      subst h1
      subst h2
      simp only [ps_lookup]
      rw [if_pos trivial]
    · have hvk : k < v := hk (v, p) hm2
      simp only [ps_lookup]
      rw [if_neg (ne_of_gt hvk)]
      exact ih hrest hm2

theorem ps_insert_spec {T : Type} [LinearOrder T] :
    ∀ {s : List (T × Nat)} {v : T} {p : Nat}, ps_sorted s →
    ps_lookup s v = some p →
    (ps_insert s v).length = s.length ∧
    ps_lookup (ps_insert s v) v = some ((p + 1) % 2 ^ 32) := by
  intro s
  induction s with
  | nil =>
    intro v p _ hl
    exact Option.noConfusion hl
  | cons x rest ih =>
    intro v p hs hl
    obtain ⟨k, q⟩ := x
    obtain ⟨hk, hrest⟩ := List.pairwise_cons.mp hs
    simp only [ps_lookup] at hl
    by_cases hv : v = k
    · rw [if_pos hv] at hl
      injection hl with hl
      subst hl
      simp only [ps_insert]
      rw [if_pos hv]
      refine ⟨rfl, ?_⟩
      simp only [ps_lookup]
      rw [if_pos hv]
    · rw [if_neg hv] at hl
      have hnk : ¬ v < k := by
        intro hvk
        have hnone : ps_lookup rest v = none :=
          ps_lookup_none_of_forall_lt (fun e he => lt_trans hvk (hk e he))
        rw [hnone] at hl
        exact Option.noConfusion hl
      simp only [ps_insert]
      rw [if_neg hv, if_neg hnk]
      obtain ⟨ih1, ih2⟩ := ih hrest hl
      refine ⟨by simp only [List.length_cons, ih1], ?_⟩
      simp only [ps_lookup]
      rw [if_neg hv]
      exact ih2

theorem ps_remove_lookup_self {T : Type} [LinearOrder T] :
    ∀ {s : List (T × Nat)} {v : T}, ps_sorted s →
    ps_lookup (ps_remove s v) v = none := by
  intro s
  induction s with
  | nil => intro v _; rfl
  | cons x rest ih =>
    intro v hs
    obtain ⟨k, q⟩ := x
    obtain ⟨hk, hrest⟩ := List.pairwise_cons.mp hs
    simp only [ps_remove]
    by_cases hv : v = k
    · rw [if_pos hv]
      subst hv
      exact ps_lookup_none_of_forall_lt (fun e he => hk e he)
    · rw [if_neg hv]
      simp only [ps_lookup]
      rw [if_neg hv]
      exact ih hrest

theorem ps_remove_lookup_ne {T : Type} [LinearOrder T] :
    ∀ {s : List (T × Nat)} {v u : T}, u ≠ v →
    ps_lookup (ps_remove s v) u = ps_lookup s u := by
  intro s
  induction s with
  | nil => intro v u _; rfl
  | cons x rest ih =>
    intro v u hne
    obtain ⟨k, q⟩ := x
    simp only [ps_remove]
    by_cases hv : v = k
    · rw [if_pos hv]
      subst hv
      simp only [ps_lookup]
      rw [if_neg hne]
    · rw [if_neg hv]
      simp only [ps_lookup]
      by_cases hu : u = k
      · rw [if_pos hu, if_pos hu]
      · rw [if_neg hu, if_neg hu]
        exact ih hne

theorem ps_canon {T : Type} [LinearOrder T] :
    ∀ {s s2 : List (T × Nat)}, ps_sorted s → ps_sorted s2 →
    (∀ k, ps_lookup s k = ps_lookup s2 k) → s = s2 := by
  intro s
  induction s with
  | nil =>
    intro s2 _ hs2 hl
    cases s2 with
    | nil => rfl
    | cons y rest2 =>
      obtain ⟨yk, yq⟩ := y
      have h1 := hl yk
      simp only [ps_lookup] at h1
      rw [if_pos trivial] at h1
      exact Option.noConfusion h1
  | cons x rest ih =>
    intro s2 hs hs2 hl
    obtain ⟨xk, xq⟩ := x
    obtain ⟨hx, hrest⟩ := List.pairwise_cons.mp hs
    cases s2 with
    | nil =>
      have h1 := hl xk
      simp only [ps_lookup] at h1
      rw [if_pos trivial] at h1
      exact Option.noConfusion h1
    | cons y rest2 =>
      obtain ⟨yk, yq⟩ := y
      obtain ⟨hy, hrest2⟩ := List.pairwise_cons.mp hs2
      have hkk : xk = yk := by
        by_contra hne
        rcases lt_or_gt_of_ne hne with hlt | hgt
        · have h1 := hl xk
          simp only [ps_lookup] at h1
          rw [if_pos trivial, if_neg (ne_of_lt hlt)] at h1
          rw [ps_lookup_none_of_forall_lt
            (fun e he => lt_trans hlt (hy e he))] at h1
          exact Option.noConfusion h1
        · have h1 := hl yk
          simp only [ps_lookup] at h1
          rw [if_pos trivial] at h1
          rw [if_neg (ne_of_lt hgt)] at h1
          rw [ps_lookup_none_of_forall_lt
            (fun e he => lt_trans hgt (hx e he))] at h1
          exact Option.noConfusion h1
      subst hkk
      have hqq : xq = yq := by
        have h1 := hl xk
        simp only [ps_lookup] at h1
        rw [if_pos trivial, if_pos trivial] at h1
        injection h1
      subst hqq
      have htail : rest = rest2 := by
        apply ih hrest hrest2
        intro k
        by_cases hk2 : k = xk
        · subst hk2
          rw [ps_lookup_none_of_forall_lt (fun e he => hx e he),
            ps_lookup_none_of_forall_lt (fun e he => hy e he)]
        · have h1 := hl k
          simp only [ps_lookup] at h1
          rw [if_neg hk2, if_neg hk2] at h1
          exact h1
      rw [htail]

theorem ps_fold_spec {T : Type} [LinearOrder T] :
    ∀ (rest : List (T × Nat)) (acc : T × Nat),
    (∀ b ∈ rest, acc.1 < b.1) →
    List.Pairwise (fun a b => a.1 < b.1) rest →
    (rest.foldl ps_max_step acc = acc ∨ rest.foldl ps_max_step acc ∈ rest) ∧
    (acc = rest.foldl ps_max_step acc ∨
      ps_lt acc (rest.foldl ps_max_step acc)) ∧
    (∀ e ∈ rest, e = rest.foldl ps_max_step acc ∨
      ps_lt e (rest.foldl ps_max_step acc)) := by
  intro rest
  induction rest with
  | nil =>
    intro acc _ _
    exact ⟨Or.inl rfl, Or.inl rfl, fun e he => absurd he (List.not_mem_nil e)⟩
  | cons b rest ih =>
    intro acc hlt hpw
    obtain ⟨hb, hpw2⟩ := List.pairwise_cons.mp hpw
    rw [List.foldl_cons]
    have hab : acc.1 < b.1 := hlt b (List.mem_cons_self b rest)
    by_cases hcond : b.2 < acc.2 ∨ (acc.2 = b.2 ∧ b.1 < acc.1)
    · have hstep : ps_max_step acc b = acc := by
        unfold ps_max_step
        rw [if_pos hcond]
      rw [hstep]
      have hba : ps_lt b acc := by
        rcases hcond with h | ⟨h1, h2⟩
        · exact Or.inl h
        · exact Or.inr ⟨h1.symm, h2⟩
      obtain ⟨m1, m2, m3⟩ :=
        ih acc (fun e he => hlt e (List.mem_cons_of_mem b he)) hpw2
      refine ⟨?_, m2, ?_⟩
      · rcases m1 with h | h
        · exact Or.inl h
        · exact Or.inr (List.mem_cons_of_mem b h)
      · intro e he
        rcases List.mem_cons.mp he with rfl | he2
        · rcases m2 with h | h
          · rw [← h]
            exact Or.inr hba
          · exact Or.inr (ps_lt_trans hba h)
        · exact m3 e he2
    · have hstep : ps_max_step acc b = b := by
        unfold ps_max_step
        rw [if_neg hcond]
      rw [hstep]
      have hab2 : ps_lt acc b := by
        rcases Nat.lt_or_ge acc.2 b.2 with h | h
        · exact Or.inl h
        · have h1 : ¬ b.2 < acc.2 := fun hc => hcond (Or.inl hc)
          have h2 : acc.2 = b.2 := by omega
          exact Or.inr ⟨h2, hab⟩
      obtain ⟨m1, m2, m3⟩ := ih b hb hpw2
      refine ⟨?_, ?_, ?_⟩
      · rcases m1 with h | h
        · refine Or.inr ?_
          rw [h]
          exact List.mem_cons_self b rest
        · exact Or.inr (List.mem_cons_of_mem b h)
      · rcases m2 with h | h
        · rw [← h]
          exact Or.inr hab2
        · exact Or.inr (ps_lt_trans hab2 h)
      · intro e he
        rcases List.mem_cons.mp he with rfl | he2
        · exact m2
        · exact m3 e he2

theorem ps_max_spec {T : Type} [LinearOrder T] {s : List (T × Nat)}
    {m : T × Nat} (hs : ps_sorted s) (hm : ps_max s = some m) :
    m ∈ s ∧ ∀ e ∈ s, e ≠ m → ps_lt e m := by
  cases s with
  | nil => exact Option.noConfusion hm
  | cons x rest =>
    simp only [ps_max, Option.some.injEq] at hm
    obtain ⟨hx, hrest⟩ := List.pairwise_cons.mp hs
    obtain ⟨m1, m2, m3⟩ := ps_fold_spec rest x hx hrest
    rw [hm] at m1 m2 m3
    constructor
    · rcases m1 with h | h
      · rw [h]
        exact List.mem_cons_self _ _
      · exact List.mem_cons_of_mem _ h
    · intro e he hne
      rcases List.mem_cons.mp he with rfl | he2
      · rcases m2 with h | h
        · exact absurd h hne
        · exact h
      · rcases m3 e he2 with h | h
        · exact absurd h hne
        · exact h

/-- **C9** (PrioritySet behaviour): on a key-sorted map state, inserting a
present key keeps the number of keys and bumps its priority by one
(`u32`-wrapping, hence strictly increasing absent overflow); `pop` returns
a key holding the maximal priority, ties broken toward the largest key,
and removes exactly that key; and `pop` is a pure function of the map
contents. -/
theorem C9_priority_set {T : Type} [LinearOrder T] {s : List (T × Nat)}
    (hs : ps_sorted s) :
    (∀ v p, ps_lookup s v = some p →
      (ps_insert s v).length = s.length ∧
      ps_lookup (ps_insert s v) v = some ((p + 1) % 2 ^ 32) ∧
      (p + 1 < 2 ^ 32 → p < (p + 1) % 2 ^ 32)) ∧
    (∀ k s2, ps_pop s = some (k, s2) →
      (∃ pk, ps_lookup s k = some pk ∧
        ∀ k2 p2, ps_lookup s k2 = some p2 → k2 ≠ k →
          p2 < pk ∨ (p2 = pk ∧ k2 < k)) ∧
      ps_lookup s2 k = none ∧
      (∀ k2, k2 ≠ k → ps_lookup s2 k2 = ps_lookup s k2)) ∧
    (∀ s3, ps_sorted s3 → (∀ k, ps_lookup s k = ps_lookup s3 k) →
      ps_pop s = ps_pop s3) := by
  refine ⟨?_, ?_, ?_⟩
  · intro v p hl
    obtain ⟨h1, h2⟩ := ps_insert_spec hs hl
    exact ⟨h1, h2, fun hlt => by omega⟩
  · intro k s2 hpop
    unfold ps_pop at hpop
    cases hmax : ps_max s with
    | none =>
      rw [hmax] at hpop
      cases hpop
    | some m =>
      rw [hmax] at hpop
      injection hpop with hpop
      injection hpop with hk hs2
      subst hk
      subst hs2
      obtain ⟨hmem, hmaxl⟩ := ps_max_spec hs hmax
      refine ⟨⟨m.2, ?_, ?_⟩, ?_, ?_⟩
      · exact ps_mem_lookup hs hmem
      · intro k2 p2 hl2 hne
        have hm2 : (k2, p2) ∈ s := ps_lookup_mem hl2
        have hnem : (k2, p2) ≠ m := fun hcon => hne (by rw [← hcon])
        rcases hmaxl (k2, p2) hm2 hnem with h | ⟨h1, h2⟩
        · exact Or.inl h
        · exact Or.inr ⟨h1, h2⟩
      · exact ps_remove_lookup_self hs
      · intro k2 hne
        exact ps_remove_lookup_ne hne
  · intro s3 hs3 hl
    rw [ps_canon hs hs3 hl]

theorem C9_priority_set_witness :
    ps_sorted [((1 : Nat), 5), (3, 5)] ∧
    ((∀ v p, ps_lookup [((1 : Nat), 5), (3, 5)] v = some p →
      (ps_insert [((1 : Nat), 5), (3, 5)] v).length =
        ([((1 : Nat), 5), (3, 5)] : List (Nat × Nat)).length ∧
      ps_lookup (ps_insert [((1 : Nat), 5), (3, 5)] v) v =
        some ((p + 1) % 2 ^ 32) ∧
      (p + 1 < 2 ^ 32 → p < (p + 1) % 2 ^ 32)) ∧
    (∀ k s2, ps_pop [((1 : Nat), 5), (3, 5)] = some (k, s2) →
      (∃ pk, ps_lookup [((1 : Nat), 5), (3, 5)] k = some pk ∧
        ∀ k2 p2, ps_lookup [((1 : Nat), 5), (3, 5)] k2 = some p2 → k2 ≠ k →
          p2 < pk ∨ (p2 = pk ∧ k2 < k)) ∧
      ps_lookup s2 k = none ∧
      (∀ k2, k2 ≠ k → ps_lookup s2 k2 =
        ps_lookup [((1 : Nat), 5), (3, 5)] k2)) ∧
    (∀ s3, ps_sorted s3 →
      (∀ k, ps_lookup [((1 : Nat), 5), (3, 5)] k = ps_lookup s3 k) →
      ps_pop [((1 : Nat), 5), (3, 5)] = ps_pop s3)) :=
  ⟨by decide, C9_priority_set (by decide)⟩

end Nonogram
